import Mathlib

/-!
# Verification of the `cghelper` code-generation templating engine

Shallow embedding of the core of `cghelper` (`src/lib.rs`, `src/display.rs`,
`src/codearg.rs`).  Rust strings are modelled as `List Char` (lengths are
character counts; all workloads of interest are ASCII, where Rust's byte
lengths coincide).  Rust panics are modelled by `Option`/`none`.  The
renderer's formatter is modelled as the list of write calls it receives
(`flush` performs one write of `nls` newline characters followed by the
buffered line); the rendered string is their concatenation.
-/

set_option maxHeartbeats 1600000

abbrev Str := List Char

/-- Convert a Lean string literal to the `List Char` model. -/
def str (s : String) : Str := s.data

/-- Rust `char::is_whitespace` (modelled on the ASCII range, which is all the
engine's templates use). -/
def isWs (c : Char) : Bool := c.isWhitespace

/-- Rust `str::trim_left` (trim leading whitespace). -/
def trimLeftChars (s : Str) : Str := s.dropWhile isWs

/-- Rust `str::trim_right` (trim trailing whitespace). -/
def trimRightChars (s : Str) : Str := (s.reverse.dropWhile isWs).reverse

/-- A string is blank iff it is entirely whitespace
(Rust `s.chars().all(char::is_whitespace)`). -/
def isBlankStr (s : Str) : Bool := s.all isWs

/-- Rust `str::split('\n')`: `""` gives one empty segment; a trailing newline
gives a trailing empty segment. -/
def splitNl : Str → List Str
  | [] => [[]]
  | c :: rest =>
      if c = '\n' then [] :: splitNl rest
      else
        match splitNl rest with
        | [] => [[c]]
        | l :: ls => (c :: l) :: ls

/-- Rust `str::lines()`: like `split('\n')` but a final empty segment produced
by a trailing newline is dropped, and a trailing `'\r'` is stripped from each
line. -/
def rustLines (s : Str) : List Str :=
  let parts := splitNl s
  let parts := if parts.getLast? = some [] then parts.dropLast else parts
  parts.map fun l => if l.getLast? = some '\r' then l.dropLast else l

/-- Rust `usize::max_value()`, the initial accumulator of `min_indent`. -/
def USIZE_MAX : Nat := 2 ^ 64 - 1

/-- `min_indent` (`lib.rs:227`): lowest indent (in characters) of any
non-blank line of the input. -/
def min_indent (s : Str) : Nat :=
  (rustLines s).foldl
    (fun m line =>
      let trimmed := trimLeftChars line
      if trimmed.isEmpty then m
      else Nat.min (line.length - trimmed.length) m)
    USIZE_MAX

/-- The character class continuing a `$name` placeholder
(`lib.rs:247`: `'a'...'z' | 'A'...'Z' | '0'...'9' | '_'`). -/
def isNameChar (c : Char) : Bool :=
  ('a' ≤ c && c ≤ 'z') || ('A' ≤ c && c ≤ 'Z') || ('0' ≤ c && c ≤ '9') || c = '_'

/-- `subst_point` (`lib.rs:242`): split a string at its first `'$'` into the
text before it, the maximal placeholder-name run after it, and the rest. -/
def substPoint : Str → Option (Str × Str × Str)
  | [] => none
  | c :: rest =>
      if c = '$' then some ([], rest.takeWhile isNameChar, rest.dropWhile isNameChar)
      else (substPoint rest).map fun p => (c :: p.1, p.2.1, p.2.2)

/-- `Op` (`lib.rs:81`).  `SourceLoc` tokens are modelled by a numeric identity
(they are compared by pointer identity in the source and are inert in plain
rendering). -/
inductive Op where
  | nl : Op
  | lit : Str → Op
  | blob : Str → Op
  | inner : List Op → Op
  | innerRef : Nat → Op
  | sourceLoc : Nat → Op

mutual

/-- Size of an operation tree (used to bound the renderer's nesting depth). -/
def Op.size : Op → Nat
  | .nl => 1
  | .lit _ => 1
  | .blob _ => 1
  | .inner l => 1 + Op.sizeList l
  | .innerRef _ => 1
  | .sourceLoc _ => 1

/-- Size of an operation sequence. -/
def Op.sizeList : List Op → Nat
  | [] => 1
  | o :: rest => 1 + Op.size o + Op.sizeList rest

end

/-- `Code` (`lib.rs:123`). -/
structure Code where
  ops : List Op

/-- `BuildArg` (`lib.rs:260`). -/
structure BuildArg where
  name : Str
  code : Option Code
  index : Nat

/-- `BuildArg::new` (`lib.rs:269`): the argument's value already converted to
`Code`, not yet consumed, index 0. -/
def BuildArg.new (name : Str) (c : Code) : BuildArg := ⟨name, some c, 0⟩

/-- One placeholder substitution (`lib.rs:336`–`343` plus `get_by_name`,
`lib.rs:278`): find the first argument with the given name (`none` models the
`get_by_name` panic); on first use move its code into an `Op.inner` and record
the insertion index `opsLen`; afterwards emit an `Op.innerRef` with relative
offset `opsLen - index`. -/
def substArg (name : Str) (opsLen : Nat) : List BuildArg → Option (Op × List BuildArg)
  | [] => none
  | a :: rest =>
      if a.name = name then
        match a.code with
        | some c => some (Op.inner c.ops, { a with code := none, index := opsLen } :: rest)
        | none => some (Op.innerRef (opsLen - a.index), a :: rest)
      else
        (substArg name opsLen rest).map fun p => (p.1, a :: p.2)

/-- The substitution loop of `str_to_code` (`lib.rs:330`–`349`): repeatedly
split the line at the next `$name`, emitting the leading text and the
substituted operation, then emit any trailing text.  The structural `fuel`
argument only drives the recursion: each iteration consumes the `'$'`, so the
remainder is strictly shorter, and the wrapper `processSubsts` passes the
line's length.  (When `fuel = 0` the line is empty, so `substPoint` would
return `none`; that terminal branch is inlined.) -/
def processSubstsAux (strOp : Str → Op) :
    Nat → Str → List BuildArg → List Op → Option (List Op × List BuildArg)
  | 0, line, args, ops =>
      some (if line.isEmpty then ops else ops ++ [strOp line], args)
  | fuel + 1, line, args, ops =>
      match substPoint line with
      | none => some (if line.isEmpty then ops else ops ++ [strOp line], args)
      | some (b, name, r) =>
          let ops1 := if b.isEmpty then ops else ops ++ [strOp b]
          match substArg name ops1.length args with
          | none => none
          | some (op, args1) => processSubstsAux strOp fuel r args1 (ops1 ++ [op])

def processSubsts (strOp : Str → Op) (line : Str) (args : List BuildArg)
    (ops : List Op) : Option (List Op × List BuildArg) :=
  processSubstsAux strOp line.length line args ops

/-- The per-line loop of `str_to_code` (`lib.rs:315`–`350`): for each line
after the first emit `Op.nl`; strip the common `indent` (a no-op on shorter
lines); trim trailing whitespace; skip lines that become empty; otherwise
scan for substitutions (when arguments were supplied) and emit the text. -/
def processLines (strOp : Str → Op) (indent : Nat) :
    List Str → Bool → Option (List BuildArg) → List Op →
    Option (List Op × Option (List BuildArg))
  | [], _, args?, ops => some (ops, args?)
  | line :: rest, first, args?, ops =>
      let ops := if first then ops else ops ++ [Op.nl]
      let line := if line.length ≥ indent then line.drop indent else line
      let line := trimRightChars line
      if line.isEmpty then
        processLines strOp indent rest false args? ops
      else
        match args? with
        | none => processLines strOp indent rest false none (ops ++ [strOp line])
        | some args =>
            match processSubsts strOp line args ops with
            | none => none
            | some (ops1, args1) => processLines strOp indent rest false (some args1) ops1

/-- The initial operations of a compilation: a `SourceLoc` marker when a
source location was supplied (`lib.rs:307`). -/
def slOps : Option Nat → List Op
  | some l => [Op.sourceLoc l]
  | none => []

/-- `str_to_code` (`lib.rs:287`): the template compiler.  The capacity
estimate and its `debug_assert` are allocation bookkeeping with no semantic
effect and are not modelled.  `none` models the `get_by_name` panic. -/
def str_to_code (tmpl : Str) (sourceloc : Option Nat)
    (args? : Option (List BuildArg)) (strOp : Str → Op) : Option Code :=
  let indent := min_indent tmpl
  (processLines strOp indent (splitNl tmpl) true args? (slOps sourceloc)).map fun p => ⟨p.1⟩

/-- `Code::build` (`lib.rs:142`). -/
def Code.build (tmpl : Str) (sl : Nat) (args : List BuildArg) : Option Code :=
  str_to_code tmpl (some sl) (some args) Op.lit

/-- `Code::new` (`lib.rs:129`). -/
def Code.new : Code := ⟨[]⟩

/-- `Code::push` (`lib.rs:136`), with the argument already converted by
`CodeArg::into_code`. -/
def Code.push (c d : Code) : Code := ⟨c.ops ++ d.ops⟩

/-- `FromIterator for Code` (`lib.rs:151`): first item as base, the rest
appended in order; empty input yields `Code::new`. -/
def Code.fromList : List Code → Code
  | [] => Code.new
  | c :: cs => cs.foldl Code.push c

/-- `impl CodeArg for &str` (`codearg.rs:41`): compile with no source
location, no arguments, and `Op.blob` segments.  With no arguments the
compiler cannot panic; the `Code.new` default is never reached. -/
def strIntoCode (s : Str) : Code :=
  (str_to_code s none none Op.blob).getD Code.new

/-- `impl CodeArg for String` (`codearg.rs:27`): the fast path stores the
string as a single `Op.blob` when it contains no newline and its *first*
character is whitespace; otherwise it defers to the `&str` conversion. -/
def stringIntoCode (s : Str) : Code :=
  if !s.contains '\n' && ((s.head?.map isWs).getD false) then
    ⟨[Op.blob s]⟩
  else
    strIntoCode s

/-- `impl CodeArg for bool` (`codearg.rs:19`). -/
def boolIntoCode (b : Bool) : Code :=
  ⟨[Op.lit (if b then str "true" else str "false")]⟩

/-! ## Renderer (`display.rs`) -/

/-- `MAX_CONSECUTIVE_NEWLINES` (`display.rs:11`). -/
def MAX_CONSECUTIVE_NEWLINES : Nat := 2

/-- `State` (`display.rs:13`), in plain mode (`styles = None`).  The formatter
is modelled by `out`: each element records one non-blank-line flush, as the
number of newline characters written followed by the line text written. -/
structure RState where
  out : List (Nat × Str)
  curr : Str
  nls : Nat
  maxNls : Nat
  offset : Nat
deriving DecidableEq, Repr

/-- `self.curr.trim_left().starts_with(&['}', ')', ']'][..])` (`display.rs:123`). -/
def startsWithCloser (s : Str) : Bool :=
  match trimLeftChars s with
  | c :: _ => c = '}' || c = ')' || c = ']'
  | [] => false

/-- `self.curr.trim_right().ends_with(&['{', '(', '['][..])` (`display.rs:147`). -/
def endsWithOpener (s : Str) : Bool :=
  match (trimRightChars s).getLast? with
  | some c => c = '{' || c = '(' || c = '['
  | none => false

/-- `State::flush` (`display.rs:112`), plain mode: if the buffered line is not
all-whitespace, clamp pending newlines to 1 before a closing bracket, write
them and the line, reset the pending count and recompute the cap (1 after an
opening bracket, else `MAX_CONSECUTIVE_NEWLINES`); in all cases reset the
offset to `base` and the buffer to `base` spaces. -/
def flush (st : RState) (base : Nat) : RState :=
  let st :=
    if isBlankStr st.curr then st
    else
      let nls := if startsWithCloser st.curr then Nat.min st.nls 1 else st.nls
      { st with
        out := st.out ++ [(nls, st.curr)]
        nls := 0
        maxNls := if endsWithOpener st.curr then 1 else MAX_CONSECUTIVE_NEWLINES }
  { st with offset := base, curr := List.replicate base ' ' }

/-- One level of `State::run` (`display.rs:42`), plain mode.  `done` is the
reversed list of operations already processed at this level, so the current
index is `done.length` and the back-reference target `ops[idx - back]` is
`done[back - 1]` (or the current operation itself when `back = 0`).  `nest`
performs the recursive `self.run(f, inner, offset)` call on a nested block;
`none` models the `assert!`/`panic!` on a malformed back-reference. -/
def runOps (nest : RState → List Op → Nat → Option RState) :
    RState → List Op → List Op → Nat → Option RState
  | st, _, [], _ => some st
  | st, done, op :: rest, base =>
      match op with
      | Op.nl =>
          let st1 := flush st base
          let st2 := if st1.nls < st1.maxNls then { st1 with nls := st1.nls + 1 } else st1
          runOps nest st2 (op :: done) rest base
      | Op.lit s =>
          runOps nest { st with offset := st.offset + s.length, curr := st.curr ++ s }
            (op :: done) rest base
      | Op.blob s =>
          runOps nest { st with offset := st.offset + s.length, curr := st.curr ++ s }
            (op :: done) rest base
      | Op.inner l =>
          match nest st l st.offset with
          | none => none
          | some st1 => runOps nest st1 (op :: done) rest base
      | Op.innerRef back =>
          if back ≤ done.length then
            match (if back = 0 then some op else done[back - 1]?) with
            | some (Op.inner l) =>
                match nest st l st.offset with
                | none => none
                | some st1 => runOps nest st1 (op :: done) rest base
            | _ => none
          else none
      | Op.sourceLoc _ => runOps nest st (op :: done) rest base

/-- Ties the recursion of `State::run` together.  The structural `depth`
argument bounds the nesting depth of recursive `run` calls; every nested
block is a strict sub-tree of the sequence containing it, so a depth of
`sizeOf` the root sequence always suffices (proved below for well-formed
documents); exceeding it yields `none`. -/
def runDepth : Nat → RState → List Op → Nat → Option RState
  | 0, _, _, _ => none
  | fuel + 1, st, l, base => runOps (runDepth fuel) st [] l base

/-- The text of one flush: the written newline characters followed by the
written line. -/
def chunkStr (c : Nat × Str) : Str := List.replicate c.1 '\n' ++ c.2

/-- `do_display` (`display.rs:175`), plain mode (`debug_highlight = false`):
run the operations from a fresh state whose buffer holds `indent` spaces,
perform the final flush with base 0, and return the concatenation of
everything written to the formatter. -/
def do_display (c : Code) (indent : Nat) : Option Str :=
  let st0 : RState :=
    { out := [], curr := List.replicate indent ' ', nls := 0, maxNls := 0, offset := 0 }
  match runOps (runDepth (Op.sizeList c.ops)) st0 [] c.ops indent with
  | none => none
  | some st => some (((flush st 0).out.map chunkStr).flatten)

/-- `impl fmt::Display for Code` (`lib.rs:183`): plain-mode rendering. -/
def render (c : Code) : Option Str := do_display c 0

/-! ## Data-model predicates -/

/-- Back-reference well-formedness (spec §3): every `Op.innerRef back` at
index `i` of a sequence satisfies `back ≤ i` and resolves to an `Op.inner` at
index `i - back` of the same sequence, recursively inside nested blocks. -/
inductive WFseq : List Op → Prop where
  | mk (ops : List Op)
      (refs : ∀ (i back : Nat), ops[i]? = some (Op.innerRef back) →
        back ≤ i ∧ ∃ l, ops[i - back]? = some (Op.inner l))
      (inners : ∀ (i : Nat) (l : List Op), ops[i]? = some (Op.inner l) → WFseq l) :
      WFseq ops

/-- The back-reference component of `WFseq`, as a predicate maintained while
a sequence is still being extended by the compiler. -/
def WFrefs (ops : List Op) : Prop :=
  ∀ (i back : Nat), ops[i]? = some (Op.innerRef back) →
    back ≤ i ∧ ∃ l, ops[i - back]? = some (Op.inner l)

/-- The nested-block component of `WFseq`. -/
def WFinners (ops : List Op) : Prop :=
  ∀ (i : Nat) (l : List Op), ops[i]? = some (Op.inner l) → WFseq l

/-- The compiler's bookkeeping invariant for its argument array: a
not-yet-consumed argument holds a well-formed document, and a consumed one
records the index of the `Op.inner` its document was moved into. -/
def ArgsInv (ops : List Op) (args : List BuildArg) : Prop :=
  ∀ a ∈ args, (∀ d, a.code = some d → WFseq d.ops) ∧
    (a.code = none → ∃ l, ops[a.index]? = some (Op.inner l))

/-- Text segments contain no newline character (spec §3: `FixedText` and
`OwnedText` "contain no newline"), recursively inside nested blocks. -/
inductive SegsOk : List Op → Prop where
  | mk (ops : List Op)
      (lits : ∀ s, Op.lit s ∈ ops → '\n' ∉ s)
      (blobs : ∀ s, Op.blob s ∈ ops → '\n' ∉ s)
      (inners : ∀ l, Op.inner l ∈ ops → SegsOk l) : SegsOk ops

/-- The per-operation content of `SegsOk`. -/
def OpSegOk (op : Op) : Prop :=
  (∀ s, op = Op.lit s → '\n' ∉ s) ∧ (∀ s, op = Op.blob s → '\n' ∉ s) ∧
    (∀ l, op = Op.inner l → SegsOk l)

/-- The documents the library constructs: compiler output over converted,
not-yet-consumed arguments (the only segment constructors the source ever
passes for `str_op` are `Op::Lit` and `Op::Blob`), the `CodeArg` adapter
leaves, and compositions by `Code::push`. -/
inductive Built : Code → Prop where
  | build (tmpl : Str) (sl : Option Nat) (args : List BuildArg)
      (strOp : Str → Op) (c : Code)
      (hop : ∀ s, strOp s = Op.lit s ∨ strOp s = Op.blob s)
      (hsome : ∀ a ∈ args, a.code ≠ none)
      (hargs : ∀ a d, a ∈ args → a.code = some d → Built d)
      (h : str_to_code tmpl sl (some args) strOp = some c) : Built c
  | ofStr (s : Str) : Built (strIntoCode s)
  | ofString (s : Str) : Built (stringIntoCode s)
  | ofBool (b : Bool) : Built (boolIntoCode b)
  | ofDisplay (s : Str) : Built ⟨[Op.blob s]⟩
  | empty : Built Code.new
  | push (a b : Code) : Built a → Built b → Built (Code.push a b)

/-! ## Output-shape predicates -/

/-- Constraints on one formatter write performed by `flush`: the written line
is non-blank and newline-free; at most `MAX_CONSECUTIVE_NEWLINES` newline
characters precede it, at most one when the line starts with a closing
bracket, and none when it is the first write of the whole render. -/
def chunkOk (firstChunk : Prop) (c : Nat × Str) : Prop :=
  ¬ (isBlankStr c.2 = true) ∧ '\n' ∉ c.2 ∧ c.1 ≤ MAX_CONSECUTIVE_NEWLINES ∧
    (startsWithCloser c.2 = true → c.1 ≤ 1) ∧ (firstChunk → c.1 = 0)

/-- All writes of a render trace are constrained as in `chunkOk`. -/
def chunksOk (l : List (Nat × Str)) : Prop :=
  ∀ i c, l[i]? = some c → chunkOk (i = 0) c

/-- The renderer-state invariant maintained by plain-mode rendering. -/
structure StateInv (st : RState) : Prop where
  nls_le : st.nls ≤ st.maxNls
  max_le : st.maxNls ≤ MAX_CONSECUTIVE_NEWLINES
  curr_nl : '\n' ∉ st.curr
  out_ok : chunksOk st.out
  empty_max : st.out = [] → st.maxNls = 0

/-! ## Column-shift machinery (nested re-indentation, spec §4.3) -/

/-- Shift one formatter write right by `k` columns: the written line gains
exactly `k` leading spaces. -/
def shiftChunk (k : Nat) (c : Nat × Str) : Nat × Str :=
  (c.1, List.replicate k ' ' ++ c.2)

/-- Shift a renderer state right by `k` columns. -/
def shiftSt (k : Nat) (st : RState) : RState :=
  { out := st.out.map (shiftChunk k)
    curr := List.replicate k ' ' ++ st.curr
    nls := st.nls
    maxNls := st.maxNls
    offset := st.offset + k }

/-! ## Specification-side definitions for the dedenting contract (spec §4.1) -/

/-- Width of the leading whitespace of a line. -/
def leadWs (l : Str) : Nat := l.length - (trimLeftChars l).length

/-- Modelled from the spec: "the minimum leading-whitespace width across all
non-blank lines of `template`"; blank (whitespace-only) lines are ignored,
`usize::MAX` standing in when there is no non-blank line. -/
def specMinIndent (s : Str) : Nat :=
  ((((rustLines s).filter fun l => !(isBlankStr l)).map leadWs).min?).getD USIZE_MAX

/-- The body of `min_indent`'s fold, abstracted over the line list. -/
def minIndentLines (ls : List Str) : Nat :=
  ls.foldl
    (fun m line =>
      let trimmed := trimLeftChars line
      if trimmed.isEmpty then m
      else Nat.min (line.length - trimmed.length) m)
    USIZE_MAX

/-- The per-line dedent of the compiler: strip `indent` leading characters
when the line is at least that long, then trim trailing whitespace. -/
def dedentLine (indent : Nat) (l : Str) : Str :=
  trimRightChars (if l.length ≥ indent then l.drop indent else l)

/-- The operations a template with no supplied arguments compiles to: a
newline marker before every line but the first, and each non-empty dedented
line as one segment. -/
def linesOps (strOp : Str → Op) (indent : Nat) : Bool → List Str → List Op
  | _, [] => []
  | first, l :: rest =>
      (if first then [] else [Op.nl]) ++
        (let d := dedentLine indent l
         if d.isEmpty then [] else [strOp d]) ++
        linesOps strOp indent false rest

/-! ## Placeholder-name extraction (missing-argument detection, spec §7) -/

/-- The placeholder names scanned from one already-dedented line, in scanning
order; the structural fuel is the line length, exactly as in
`processSubstsAux`. -/
def lineNamesAux : Nat → Str → List Str
  | 0, _ => []
  | fuel + 1, line =>
      match substPoint line with
      | none => []
      | some (_, name, r) => name :: lineNamesAux fuel r

def lineNames (line : Str) : List Str := lineNamesAux line.length line

/-- All placeholder names of a template, per line after the compiler's
dedenting. -/
def tmplNames (tmpl : Str) : List Str :=
  ((splitNl tmpl).map fun l => lineNames (dedentLine (min_indent tmpl) l)).flatten

/-! ## Concrete documents used by individual claims -/

/-- One field sub-document of the end-to-end example (spec §8): the template
`"$ty $field;\n"` compiled with `ty` and `field` bound to plain strings. -/
def fieldDoc (ty fld : String) : Option Code :=
  str_to_code (str "$ty $field;\n") (some 1)
    (some [BuildArg.new (str "ty") (strIntoCode (str ty)),
           BuildArg.new (str "field") (strIntoCode (str fld))]) Op.lit

/-- The `fields` argument of the end-to-end example: the two field documents
concatenated with `Code::push`. -/
def C1fields : Option Code := do
  let a ← fieldDoc "uint32_t" "a"
  let b ← fieldDoc "char*" "b"
  pure (Code.push a b)

/-- The end-to-end example document (spec §8). -/
def C1doc : Option Code := do
  let fields ← C1fields
  str_to_code (str "struct $name \x7b\n    $fields\n\x7d;\n") (some 0)
    (some [BuildArg.new (str "name") (strIntoCode (str "peaches")),
           BuildArg.new (str "fields") fields]) Op.lit

/-- The repeated-argument example (spec §8): `"$x, $x!"` with `x = "hi"`. -/
def C4doc : Option Code :=
  str_to_code (str "$x, $x!") (some 0)
    (some [BuildArg.new (str "x") (strIntoCode (str "hi"))]) Op.lit

/-- A multi-line document substituted at output column 5. -/
def C7doc : Option Code :=
  str_to_code (str "foo: $b") (some 2)
    (some [BuildArg.new (str "b") (strIntoCode (str "x\ny\nz"))]) Op.lit

/-! # Theorems -/

/-! ## Basic whitespace and string lemmas -/

lemma trimLeft_replicate_space (k : Nat) (s : Str) :
    trimLeftChars (List.replicate k ' ' ++ s) = trimLeftChars s := by
  simp [trimLeftChars, List.dropWhile_append, List.dropWhile_replicate, isWs,
    Char.isWhitespace]

lemma isBlank_replicate_space (k : Nat) (s : Str) :
    isBlankStr (List.replicate k ' ' ++ s) = isBlankStr s := by
  simp [isBlankStr, List.all_append, List.all_eq_true, List.mem_replicate, isWs,
    Char.isWhitespace]

lemma startsWithCloser_replicate_space (k : Nat) (s : Str) :
    startsWithCloser (List.replicate k ' ' ++ s) = startsWithCloser s := by
  simp [startsWithCloser, trimLeft_replicate_space]

lemma not_blank_ne_nil {s : Str} (h : isBlankStr s = false) : s ≠ [] := by
  intro he; subst he; simp [isBlankStr] at h

lemma dropWhile_rev_ne_nil {s : Str} (h : isBlankStr s = false) :
    s.reverse.dropWhile isWs ≠ [] := by
  intro he
  rw [List.dropWhile_eq_nil_iff] at he
  have hb : isBlankStr s = true := by
    rw [isBlankStr, List.all_eq_true]
    intro c hc
    exact he c (List.mem_reverse.mpr hc)
  rw [hb] at h
  cases h

lemma trimRight_ne_nil {s : Str} (h : isBlankStr s = false) :
    trimRightChars s ≠ [] := by
  intro he
  apply dropWhile_rev_ne_nil h
  have := congrArg List.reverse he
  simpa [trimRightChars] using this

lemma trimRight_append_of_not_blank (p : Str) {s : Str} (h : isBlankStr s = false) :
    trimRightChars (p ++ s) = p ++ trimRightChars s := by
  have hne : (s.reverse.dropWhile isWs).isEmpty = false := by
    cases hE : (s.reverse.dropWhile isWs).isEmpty
    · rfl
    · exact absurd (List.isEmpty_iff.mp hE) (dropWhile_rev_ne_nil h)
  simp [trimRightChars, List.reverse_append, List.dropWhile_append, hne]

lemma endsWithOpener_replicate_space (k : Nat) {s : Str} (h : isBlankStr s = false) :
    endsWithOpener (List.replicate k ' ' ++ s) = endsWithOpener s := by
  rw [endsWithOpener, endsWithOpener,
    trimRight_append_of_not_blank (List.replicate k ' ') h]
  have hne : trimRightChars s ≠ [] := trimRight_ne_nil h
  rw [List.getLast?_append]
  cases hl : (trimRightChars s).getLast? with
  | none => exact absurd (List.getLast?_eq_none_iff.mp hl) hne
  | some c => simp [Option.or]

lemma mem_trimRight_subset {c : Char} {s : Str} (h : c ∈ trimRightChars s) : c ∈ s := by
  rw [trimRightChars] at h
  rw [List.mem_reverse] at h
  exact List.mem_reverse.mp ((List.dropWhile_sublist _).mem h)

/-! ## `SegsOk` helpers -/

lemma segsOk_nil : SegsOk [] :=
  SegsOk.mk [] (by simp) (by simp) (by simp)

lemma segsOk_cons {op : Op} {ops : List Op} :
    SegsOk (op :: ops) ↔ OpSegOk op ∧ SegsOk ops := by
  constructor
  · rintro ⟨_, lits, blobs, inners⟩
    refine ⟨⟨fun s hs => lits s (hs ▸ List.mem_cons_self _ _),
            fun s hs => blobs s (hs ▸ List.mem_cons_self _ _),
            fun l hl => inners l (hl ▸ List.mem_cons_self _ _)⟩,
          SegsOk.mk ops (fun s hs => lits s (List.mem_cons_of_mem _ hs))
            (fun s hs => blobs s (List.mem_cons_of_mem _ hs))
            (fun l hl => inners l (List.mem_cons_of_mem _ hl))⟩
  · rintro ⟨⟨h1, h2, h3⟩, ⟨_, lits, blobs, inners⟩⟩
    refine SegsOk.mk _ ?_ ?_ ?_
    · intro s hs
      rcases List.mem_cons.mp hs with h | h
      · exact h1 s h.symm
      · exact lits s h
    · intro s hs
      rcases List.mem_cons.mp hs with h | h
      · exact h2 s h.symm
      · exact blobs s h
    · intro l hl
      rcases List.mem_cons.mp hl with h | h
      · exact h3 l h.symm
      · exact inners l h

lemma segsOk_inner_of_mem {ops l : List Op} (h : SegsOk ops)
    (hm : Op.inner l ∈ ops) : SegsOk l := by
  rcases h with ⟨_, _, _, inners⟩
  exact inners l hm

/-! ## `chunksOk` helpers -/

lemma chunkOk_mono {P Q : Prop} {c : Nat × Str} (h : Q → P) (hc : chunkOk P c) :
    chunkOk Q c :=
  ⟨hc.1, hc.2.1, hc.2.2.1, hc.2.2.2.1, fun hq => hc.2.2.2.2 (h hq)⟩

lemma chunksOk_nil : chunksOk [] := by
  intro i c h
  simp at h

lemma chunksOk_concat {l : List (Nat × Str)} {c : Nat × Str}
    (h : chunksOk l) (hc : chunkOk (l = []) c) : chunksOk (l ++ [c]) := by
  intro i c' hi
  rcases lt_trichotomy i l.length with hlt | heq | hgt
  · rw [List.getElem?_append_left hlt] at hi
    exact h i c' hi
  · subst heq
    rw [List.getElem?_concat_length] at hi
    cases hi
    refine chunkOk_mono ?_ hc
    intro h0
    exact List.length_eq_zero.mp h0
  · exfalso
    have hlen : (l ++ [c]).length ≤ i := by
      simp only [List.length_append, List.length_singleton]
      omega
    rw [List.getElem?_eq_none hlen] at hi
    exact Option.noConfusion hi

/-! ## `flush` preserves the state invariant -/

lemma replicate_space_no_nl (k : Nat) : '\n' ∉ List.replicate k ' ' := by
  intro h
  have := List.eq_of_mem_replicate h
  simp at this

lemma flush_inv {st : RState} (h : StateInv st) (base : Nat) :
    StateInv (flush st base) := by
  by_cases hb : isBlankStr st.curr = true
  · simp only [flush, hb, if_true]
    exact ⟨h.nls_le, h.max_le, replicate_space_no_nl base, h.out_ok, h.empty_max⟩
  · rw [Bool.not_eq_true] at hb
    simp only [flush, hb, Bool.false_eq_true, if_false]
    refine ⟨Nat.zero_le _, ?_, replicate_space_no_nl base, ?_, ?_⟩
    · show (if endsWithOpener st.curr = true then 1 else MAX_CONSECUTIVE_NEWLINES) ≤
        MAX_CONSECUTIVE_NEWLINES
      split
      · decide
      · exact le_refl _
    · refine chunksOk_concat h.out_ok ⟨by simp [hb], h.curr_nl, ?_, ?_, ?_⟩
      · split
        · exact le_trans (Nat.min_le_right _ _) (by decide)
        · exact le_trans h.nls_le h.max_le
      · intro hcl
        rw [if_pos hcl]
        exact Nat.min_le_right _ _
      · intro hout
        have hmax := h.empty_max hout
        have hz : st.nls = 0 := Nat.le_zero.mp (hmax ▸ h.nls_le)
        split
        · simp [hz]
        · exact hz
    · intro habs
      exact absurd habs (by simp)

lemma nlBump_inv {st : RState} (h : StateInv st) :
    StateInv (if st.nls < st.maxNls then { st with nls := st.nls + 1 } else st) := by
  split
  · exact ⟨by simp; omega, h.max_le, h.curr_nl, h.out_ok, h.empty_max⟩
  · exact h

/-! ## The renderer preserves the state invariant -/

lemma runOps_inv
    (nest : RState → List Op → Nat → Option RState)
    (hnest : ∀ st l b st', StateInv st → SegsOk l → nest st l b = some st' →
      StateInv st') :
    ∀ (rest done : List Op) (st : RState) (base : Nat) (st' : RState),
      StateInv st → SegsOk done → SegsOk rest →
      runOps nest st done rest base = some st' → StateInv st' := by
  intro rest
  induction rest with
  | nil =>
      intro done st base st' hst _ _ h
      rw [runOps] at h
      cases h
      exact hst
  | cons op rest ih =>
      intro done st base st' hst hdone hrest h
      obtain ⟨hop, hrest'⟩ := segsOk_cons.mp hrest
      cases op with
      | nl =>
          rw [runOps] at h
          refine ih _ _ _ _ (nlBump_inv (flush_inv hst base)) ?_ hrest' h
          exact segsOk_cons.mpr ⟨by simp [OpSegOk], hdone⟩
      | lit s =>
          rw [runOps] at h
          refine ih _ _ _ _ ?_ (segsOk_cons.mpr ⟨hop, hdone⟩) hrest' h
          have hs : '\n' ∉ s := hop.1 s rfl
          exact ⟨hst.nls_le, hst.max_le, by simp [hst.curr_nl, hs], hst.out_ok,
            hst.empty_max⟩
      | blob s =>
          rw [runOps] at h
          refine ih _ _ _ _ ?_ (segsOk_cons.mpr ⟨hop, hdone⟩) hrest' h
          have hs : '\n' ∉ s := hop.2.1 s rfl
          exact ⟨hst.nls_le, hst.max_le, by simp [hst.curr_nl, hs], hst.out_ok,
            hst.empty_max⟩
      | inner l =>
          rw [runOps] at h
          split at h
          · cases h
          · rename_i st1 heq
            have hl : SegsOk l := hop.2.2 l rfl
            exact ih _ _ _ _ (hnest _ _ _ _ hst hl heq)
              (segsOk_cons.mpr ⟨hop, hdone⟩) hrest' h
      | innerRef back =>
          rw [runOps] at h
          split at h
          · split at h
            · rename_i l heq
              split at h
              · cases h
              · rename_i st1 heq2
                have hmem : Op.inner l ∈ done := by
                  by_cases hb0 : back = 0
                  · rw [if_pos hb0] at heq
                    simp at heq
                  · rw [if_neg hb0] at heq
                    exact List.getElem?_mem heq
                have hl : SegsOk l := segsOk_inner_of_mem hdone hmem
                exact ih _ _ _ _ (hnest _ _ _ _ hst hl heq2)
                  (segsOk_cons.mpr ⟨hop, hdone⟩) hrest' h
            · cases h
          · cases h
      | sourceLoc n =>
          rw [runOps] at h
          exact ih _ _ _ _ hst (segsOk_cons.mpr ⟨hop, hdone⟩) hrest' h

lemma runDepth_inv :
    ∀ (F : Nat) (st : RState) (l : List Op) (b : Nat) (st' : RState),
      StateInv st → SegsOk l → runDepth F st l b = some st' → StateInv st' := by
  intro F
  induction F with
  | zero => intro st l b st' _ _ h; rw [runDepth] at h; cases h
  | succ f ih =>
      intro st l b st' hst hl h
      rw [runDepth] at h
      exact runOps_inv _ ih l [] st b st' hst segsOk_nil hl h

lemma stateInv_init (indent : Nat) :
    StateInv
      { out := [], curr := List.replicate indent ' ', nls := 0, maxNls := 0,
        offset := 0 } :=
  ⟨le_refl 0, by simp [MAX_CONSECUTIVE_NEWLINES], replicate_space_no_nl indent,
    chunksOk_nil, fun _ => rfl⟩

/-- Master output-shape lemma: a successful plain-mode render of a document
whose segments contain no newline is the concatenation of writes satisfying
`chunkOk`. -/
lemma render_chunks {c : Code} {s : Str} (hseg : SegsOk c.ops)
    (h : render c = some s) :
    ∃ chunks, chunksOk chunks ∧ s = (chunks.map chunkStr).flatten := by
  rw [render, do_display] at h
  cases heq : runOps (runDepth (Op.sizeList c.ops))
      { out := [], curr := List.replicate 0 ' ', nls := 0, maxNls := 0,
        offset := 0 } [] c.ops 0 with
  | none => rw [heq] at h; cases h
  | some st =>
      rw [heq] at h
      have hst : StateInv st :=
        runOps_inv _ (runDepth_inv _) c.ops [] _ 0 st (stateInv_init 0) segsOk_nil
          hseg heq
      have hfl : StateInv (flush st 0) := flush_inv hst 0
      refine ⟨(flush st 0).out, hfl.out_ok, ?_⟩
      cases h
      rfl

/-! ## Characterizing compilation without arguments -/

lemma splitNl_ne_nil (s : Str) : splitNl s ≠ [] := by
  cases s with
  | nil => simp [splitNl]
  | cons c rest =>
      rw [splitNl]
      split
      · simp
      · cases hsp : splitNl rest <;> simp

lemma splitNl_no_nl : ∀ (s : Str), ∀ l ∈ splitNl s, '\n' ∉ l := by
  intro s
  induction s with
  | nil =>
      intro l hl
      rw [splitNl] at hl
      rcases List.mem_singleton.mp hl with rfl
      simp
  | cons c rest ih =>
      intro l hl
      rw [splitNl] at hl
      by_cases hc : c = '\n'
      · rw [if_pos hc] at hl
        rcases List.mem_cons.mp hl with rfl | h
        · simp
        · exact ih l h
      · rw [if_neg hc] at hl
        cases hsp : splitNl rest with
        | nil => exact absurd hsp (splitNl_ne_nil rest)
        | cons l0 ls =>
            rw [hsp] at hl
            rcases List.mem_cons.mp hl with rfl | h
            · intro hmem
              rcases List.mem_cons.mp hmem with h' | h'
              · exact hc h'.symm
              · exact ih l0 (hsp ▸ List.mem_cons_self _ _) h'
            · exact ih l (hsp ▸ List.mem_cons_of_mem _ h)

lemma mem_dedentLine_subset {x : Char} {ind : Nat} {l : Str}
    (h : x ∈ dedentLine ind l) : x ∈ l := by
  rw [dedentLine] at h
  have h1 := mem_trimRight_subset h
  split at h1
  · exact (List.drop_subset _ _) h1
  · exact h1

lemma processLines_none (strOp : Str → Op) (indent : Nat) :
    ∀ (lines : List Str) (first : Bool) (ops : List Op),
      processLines strOp indent lines first none ops =
        some (ops ++ linesOps strOp indent first lines, none) := by
  intro lines
  induction lines with
  | nil => intro first ops; simp [processLines, linesOps]
  | cons l rest ih =>
      intro first ops
      rw [processLines, linesOps]
      by_cases he : (dedentLine indent l).isEmpty
      · have he' :
            (trimRightChars (if l.length ≥ indent then l.drop indent else l)).isEmpty
              = true := he
        rw [if_pos he', ih]
        simp only [dedentLine] at he ⊢
        rw [he]
        cases first <;> simp
      · have he' :
            (trimRightChars (if l.length ≥ indent then l.drop indent else l)).isEmpty
              = true → False := fun hh => he hh
        rw [if_neg he', ih]
        simp only [dedentLine] at he ⊢
        rw [Bool.not_eq_true] at he
        rw [he]
        cases first <;> simp

lemma strToCode_none (tmpl : Str) (sl : Option Nat) (strOp : Str → Op) :
    str_to_code tmpl sl none strOp =
      some ⟨slOps sl ++ linesOps strOp (min_indent tmpl) true (splitNl tmpl)⟩ := by
  rw [str_to_code]
  rw [processLines_none]
  rfl

lemma strIntoCode_eq (s : Str) :
    strIntoCode s = ⟨linesOps Op.blob (min_indent s) true (splitNl s)⟩ := by
  rw [strIntoCode, strToCode_none]
  rfl

lemma linesOps_mem {strOp : Str → Op} {ind : Nat} :
    ∀ {ls : List Str} {first : Bool} {op : Op}, op ∈ linesOps strOp ind first ls →
      op = Op.nl ∨ ∃ l ∈ ls, op = strOp (dedentLine ind l) := by
  intro ls
  induction ls with
  | nil => intro first op h; rw [linesOps] at h; cases h
  | cons l rest ih =>
      intro first op h
      rw [linesOps] at h
      rw [List.mem_append, List.mem_append] at h
      rcases h with (h | h) | h
      · left
        cases first with
        | true => cases h
        | false => exact List.mem_singleton.mp h
      · right
        refine ⟨l, List.mem_cons_self _ _, ?_⟩
        simp only at h
        split at h
        · cases h
        · exact List.mem_singleton.mp h
      · rcases ih h with h' | ⟨l', hl', h'⟩
        · exact Or.inl h'
        · exact Or.inr ⟨l', List.mem_cons_of_mem _ hl', h'⟩

lemma segsOk_blob_linesOps {ind : Nat} {ls : List Str} {first : Bool}
    (hls : ∀ l ∈ ls, '\n' ∉ l) : SegsOk (linesOps Op.blob ind first ls) := by
  refine SegsOk.mk _ ?_ ?_ ?_
  · intro s hs
    rcases linesOps_mem hs with h | ⟨l, _, h⟩ <;> cases h
  · intro s hs
    rcases linesOps_mem hs with h | ⟨l, hl, h⟩
    · cases h
    · cases h
      intro hmem
      exact hls l hl (mem_dedentLine_subset hmem)
  · intro l hl
    rcases linesOps_mem hl with h | ⟨l', _, h⟩ <;> cases h

/-- The `&str` adapter always yields a document whose segments are
newline-free (the data-model invariant of spec §3). -/
lemma segsOk_strIntoCode (s : Str) : SegsOk (strIntoCode s).ops := by
  rw [strIntoCode_eq]
  exact segsOk_blob_linesOps (splitNl_no_nl s)

/-! ## From the write-trace shape to string-level facts -/

lemma chunk_line_facts {chunks : List (Nat × Str)} (h : chunksOk chunks) :
    ∀ c ∈ chunks, c.2 ≠ [] ∧ '\n' ∉ c.2 := by
  intro c hc
  obtain ⟨i, hi⟩ := List.getElem?_of_mem hc
  have hok := h i c hi
  refine ⟨?_, hok.2.1⟩
  intro hnil
  exact hok.1 (by rw [hnil]; rfl)

lemma flatten_chunk_ne_nil {c : Nat × Str} (h : c.2 ≠ []) : chunkStr c ≠ [] := by
  rw [chunkStr]
  intro habs
  exact h (List.append_eq_nil.mp habs).2

lemma getLast?_flatten_no_nl :
    ∀ (chunks : List (Nat × Str)), (∀ c ∈ chunks, c.2 ≠ [] ∧ '\n' ∉ c.2) →
      ((chunks.map chunkStr).flatten).getLast? ≠ some '\n' := by
  intro chunks
  induction chunks with
  | nil => intro _; simp
  | cons c0 rest ih =>
      intro hfacts
      have hc0 := hfacts c0 (List.mem_cons_self _ _)
      cases rest with
      | nil =>
          simp only [List.map_cons, List.map_nil, List.flatten_cons,
            List.flatten_nil, List.append_nil]
          rw [chunkStr, List.getLast?_append]
          cases hl : c0.2.getLast? with
          | none => exact absurd (List.getLast?_eq_none_iff.mp hl) hc0.1
          | some x =>
              have hx : x ∈ c0.2 := List.mem_of_mem_getLast? hl
              simp only [Option.or_some]
              intro habs
              cases habs
              exact hc0.2 hx
      | cons c1 rest' =>
          have hrest : ∀ c ∈ c1 :: rest', c.2 ≠ [] ∧ '\n' ∉ c.2 :=
            fun c hc => hfacts c (List.mem_cons_of_mem _ hc)
          have hne : ((c1 :: rest').map chunkStr).flatten ≠ [] := by
            simp only [List.map_cons, List.flatten_cons]
            intro habs
            exact flatten_chunk_ne_nil (hrest c1 (List.mem_cons_self _ _)).1
              (List.append_eq_nil.mp habs).1
          simp only [List.map_cons, List.flatten_cons] at *
          rw [List.getLast?_append]
          cases hl : (chunkStr c1 ++ ((rest').map chunkStr).flatten).getLast? with
          | none => exact absurd (List.getLast?_eq_none_iff.mp hl) hne
          | some x =>
              simp only [Option.or_some]
              intro habs
              cases habs
              exact ih hrest (hl.trans rfl)

lemma head_flatten_no_nl {chunks : List (Nat × Str)} (h : chunksOk chunks) :
    ((chunks.map chunkStr).flatten).head? ≠ some '\n' := by
  cases chunks with
  | nil => simp
  | cons c0 rest =>
      have hok := h 0 c0 (by simp)
      have hk : c0.1 = 0 := hok.2.2.2.2 rfl
      have hfacts := chunk_line_facts h c0 (List.mem_cons_self _ _)
      simp only [List.map_cons, List.flatten_cons]
      rw [chunkStr, hk]
      simp only [List.replicate_zero, List.nil_append]
      cases hline : c0.2 with
      | nil => exact absurd hline hfacts.1
      | cons a as =>
          simp only [List.cons_append, List.head?_cons]
          intro habs
          cases habs
          exact hfacts.2 (hline ▸ List.mem_cons_self _ _)

/-- **C5**.  Blank-line collapsing: a successful plain-mode render of any
document (with newline-free text segments, the data-model invariant) is a
concatenation of flush writes satisfying `chunkOk`: every content line is
preceded by at most `MAX_CONSECUTIVE_NEWLINES = 2` newline characters — hence
at most two (in fact at most one) blank output lines separate any two content
lines, however many consecutive blank template lines occurred — and a content
line whose trimmed form starts with `}`, `)` or `]` is preceded by at most one
newline character, hence by at most one (in fact zero) blank lines. -/
theorem C5_blank_collapse (c : Code) (s : Str) (hseg : SegsOk c.ops)
    (h : render c = some s) :
    ∃ chunks, s = (chunks.map chunkStr).flatten ∧ chunksOk chunks := by
  obtain ⟨chunks, hok, hs⟩ := render_chunks hseg h
  exact ⟨chunks, hs, hok⟩

theorem C5_witness :
    render (strIntoCode (str "a\n\n\n\n\n\nb")) = some (str "a\n\nb") ∧
      ∃ chunks, str "a\n\nb" = (chunks.map chunkStr).flatten ∧ chunksOk chunks :=
  ⟨by decide,
    C5_blank_collapse (strIntoCode (str "a\n\n\n\n\n\nb")) (str "a\n\nb")
      (segsOk_strIntoCode (str "a\n\n\n\n\n\nb")) (by decide)⟩

/-- **C9**.  The plain-mode rendered output never begins with a newline
character: the blank-line cap starts at 0, so newline markers and blank lines
before the first content line write nothing (the first flush write carries
zero newline characters). -/
theorem C9_no_leading_newline (c : Code) (s : Str) (hseg : SegsOk c.ops)
    (h : render c = some s) : s.head? ≠ some '\n' := by
  obtain ⟨chunks, hok, hs⟩ := render_chunks hseg h
  rw [hs]
  exact head_flatten_no_nl hok

theorem C9_witness :
    render (strIntoCode (str "\n\nhello")) = some (str "hello") ∧
      (str "hello").head? ≠ some '\n' :=
  ⟨by decide,
    C9_no_leading_newline (strIntoCode (str "\n\nhello")) (str "hello")
      (segsOk_strIntoCode (str "\n\nhello")) (by decide)⟩

/-- **C10**.  The plain-mode rendered output never ends with a newline
character: pending newlines are written only immediately before a subsequent
content line, so trailing newline markers (including the one a template's
final `"\n"` compiles to) produce no output, and the final flush of a
whitespace-only buffer writes nothing. -/
theorem C10_no_trailing_newline (c : Code) (s : Str) (hseg : SegsOk c.ops)
    (h : render c = some s) : s.getLast? ≠ some '\n' := by
  obtain ⟨chunks, hok, hs⟩ := render_chunks hseg h
  rw [hs]
  exact getLast?_flatten_no_nl chunks (chunk_line_facts hok)

theorem C10_witness :
    render (strIntoCode (str "bye\n")) = some (str "bye") ∧
      (str "bye").getLast? ≠ some '\n' :=
  ⟨by decide,
    C10_no_trailing_newline (strIntoCode (str "bye\n")) (str "bye")
      (segsOk_strIntoCode (str "bye\n")) (by decide)⟩

/-! ## Minimum-indent lemmas (dedenting, C6) -/

lemma trimLeft_isEmpty_eq_blank (l : Str) :
    (trimLeftChars l).isEmpty = isBlankStr l := by
  rw [Bool.eq_iff_iff]
  simp [trimLeftChars, isBlankStr, List.isEmpty_iff, List.dropWhile_eq_nil_iff,
    List.all_eq_true]

lemma minIndent_fold_filtered :
    ∀ (ls : List Str) (acc : Nat),
      ls.foldl
        (fun m line =>
          let trimmed := trimLeftChars line
          if trimmed.isEmpty then m
          else Nat.min (line.length - trimmed.length) m)
        acc =
      ((ls.filter fun l => !(isBlankStr l)).map leadWs).foldl
        (fun m x => Nat.min x m) acc := by
  intro ls
  induction ls with
  | nil => intro acc; rfl
  | cons l rest ih =>
      intro acc
      rw [List.foldl_cons]
      by_cases hb : isBlankStr l = true
      · have ht : (trimLeftChars l).isEmpty = true := by
          rw [trimLeft_isEmpty_eq_blank, hb]
        simp only [ht, if_true, List.filter_cons, hb, Bool.not_true]
        exact ih acc
      · rw [Bool.not_eq_true] at hb
        have ht : (trimLeftChars l).isEmpty = false := by
          rw [trimLeft_isEmpty_eq_blank, hb]
        simp only [ht, Bool.false_eq_true, if_false, List.filter_cons, hb,
          Bool.not_false, if_true, List.map_cons, List.foldl_cons]
        exact ih _

lemma foldl_min_elim :
    ∀ (xs : List Nat) (a : Nat),
      xs.foldl (fun m x => Nat.min x m) a = xs.min?.elim a (fun b => Nat.min a b) := by
  intro xs
  induction xs with
  | nil => intro a; rfl
  | cons x rest ih =>
      intro a
      rw [List.foldl_cons, ih, List.min?_cons]
      cases hm : rest.min? with
      | none => simp [Option.elim, Nat.min_comm]
      | some m =>
          simp only [Option.elim, hm, Nat.min_def, min_def]
          split_ifs <;> omega

lemma foldl_min_getD (xs : List Nat) (M : Nat) (hM : ∀ x ∈ xs, x ≤ M) :
    xs.foldl (fun m x => Nat.min x m) M = xs.min?.getD M := by
  rw [foldl_min_elim]
  cases hm : xs.min? with
  | none => rfl
  | some m =>
      simp only [Option.elim, Option.getD]
      have hmem : m ∈ xs := List.min?_mem (fun a b => min_choice a b) hm
      exact Nat.min_eq_right (hM m hmem)

lemma mem_splitNl_length : ∀ (s l : Str), l ∈ splitNl s → l.length ≤ s.length := by
  intro s
  induction s with
  | nil =>
      intro l h
      rw [splitNl] at h
      rcases List.mem_singleton.mp h with rfl
      exact le_refl _
  | cons c rest ih =>
      intro l h
      rw [splitNl] at h
      split at h
      · rcases List.mem_cons.mp h with rfl | h'
        · simp
        · exact le_trans (ih l h') (by simp)
      · cases hsp : splitNl rest with
        | nil => exact absurd hsp (splitNl_ne_nil rest)
        | cons l0 ls =>
            rw [hsp] at h
            rcases List.mem_cons.mp h with rfl | h'
            · have hm : l0 ∈ splitNl rest := by
                rw [hsp]; exact List.mem_cons_self _ _
              have := ih l0 hm
              simp only [List.length_cons]
              omega
            · have hm : l ∈ splitNl rest := by
                rw [hsp]; exact List.mem_cons_of_mem _ h'
              exact le_trans (ih l hm) (by simp)

lemma mem_rustLines_length {l : Str} {s : Str} (h : l ∈ rustLines s) :
    l.length ≤ s.length := by
  rw [rustLines] at h
  simp only [List.mem_map] at h
  obtain ⟨l', hl', rfl⟩ := h
  have hl'' : l' ∈ splitNl s := by
    by_cases hlast : (splitNl s).getLast? = some ([] : Str)
    · rw [if_pos hlast] at hl'
      exact (List.dropLast_sublist _).mem hl'
    · rw [if_neg hlast] at hl'
      exact hl'
  have h1 : l'.length ≤ s.length := mem_splitNl_length s l' hl''
  split
  · refine le_trans ?_ h1
    rw [List.length_dropLast]
    exact Nat.sub_le _ _
  · exact h1

lemma leadWs_le_length (l : Str) : leadWs l ≤ l.length := Nat.sub_le _ _

/-- **C6**.  Dedenting: `min_indent` computes exactly the spec's minimum
leading-whitespace width over all non-blank lines (`specMinIndent`), blank
(whitespace-only) lines never affect the computed minimum (inserting one
leaves the fold unchanged), and compilation transforms every split line by
`dedentLine`: strip exactly that minimum from the start of the line (a no-op
on lines shorter than the minimum) and then trim trailing whitespace — shown
in full on the substitution-free path, which shares the per-line dedent with
the argument path. -/
theorem C6_dedent :
    (∀ s : Str, s.length ≤ USIZE_MAX → min_indent s = specMinIndent s) ∧
    (∀ (pre post : List Str) (b : Str), isBlankStr b = true →
      minIndentLines (pre ++ b :: post) = minIndentLines (pre ++ post)) ∧
    (∀ s : Str, min_indent s = minIndentLines (rustLines s)) ∧
    (∀ (tmpl : Str) (sl : Option Nat) (strOp : Str → Op),
      str_to_code tmpl sl none strOp =
        some ⟨slOps sl ++ linesOps strOp (min_indent tmpl) true (splitNl tmpl)⟩) := by
  refine ⟨?_, ?_, fun s => rfl, fun tmpl sl strOp => strToCode_none tmpl sl strOp⟩
  · intro s hs
    rw [show min_indent s = minIndentLines (rustLines s) from rfl, minIndentLines,
      minIndent_fold_filtered, specMinIndent]
    refine foldl_min_getD _ _ ?_
    intro x hx
    obtain ⟨l, hl, rfl⟩ := List.mem_map.mp hx
    have hl' : l ∈ rustLines s := List.mem_of_mem_filter hl
    exact le_trans (leadWs_le_length l) (le_trans (mem_rustLines_length hl') hs)
  · intro pre post b hb
    rw [minIndentLines, minIndentLines, minIndent_fold_filtered,
      minIndent_fold_filtered]
    congr 1
    simp [List.filter_append, List.filter_cons, hb]

theorem C6_witness :
    ((str "  a\n b").length ≤ USIZE_MAX ∧
      min_indent (str "  a\n b") = specMinIndent (str "  a\n b")) ∧
    (isBlankStr (str "  ") = true ∧
      minIndentLines ([str "  x"] ++ (str "  ") :: [str " y"]) =
        minIndentLines ([str "  x"] ++ [str " y"])) :=
  ⟨⟨by decide, C6_dedent.1 (str "  a\n b") (by decide)⟩,
   ⟨by decide, C6_dedent.2.1 [str "  x"] [str " y"] (str "  ") (by decide)⟩⟩

/-! ## Placeholder-name lemmas (missing-argument detection, C8) -/

lemma substArg_none_iff (name : Str) (len : Nat) :
    ∀ args : List BuildArg,
      substArg name len args = none ↔ ∀ a ∈ args, a.name ≠ name := by
  intro args
  induction args with
  | nil => simp [substArg]
  | cons a rest ih =>
      rw [substArg]
      by_cases hn : a.name = name
      · rw [if_pos hn]
        constructor
        · intro h
          cases hc : a.code with
          | some c => rw [hc] at h; cases h
          | none => rw [hc] at h; cases h
        · intro h
          exact absurd hn (h a (List.mem_cons_self _ _))
      · rw [if_neg hn]
        constructor
        · intro h
          intro a' ha'
          rcases List.mem_cons.mp ha' with rfl | ha'
          · exact hn
          · cases hsub : substArg name len rest with
            | none => exact (ih.mp hsub) a' ha'
            | some p => rw [hsub] at h; cases h
        · intro h
          rw [ih.mpr fun a' ha' => h a' (List.mem_cons_of_mem _ ha')]
          rfl

lemma substArg_names (name : Str) (len : Nat) :
    ∀ (args : List BuildArg) (op : Op) (args' : List BuildArg),
      substArg name len args = some (op, args') →
      args'.map (fun a => a.name) = args.map (fun a => a.name) := by
  intro args
  induction args with
  | nil => intro op args' h; cases h
  | cons a rest ih =>
      intro op args' h
      rw [substArg] at h
      by_cases hn : a.name = name
      · rw [if_pos hn] at h
        cases hc : a.code with
        | some c =>
            rw [hc] at h
            cases h
            rfl
        | none =>
            rw [hc] at h
            cases h
            rfl
      · rw [if_neg hn] at h
        cases hsub : substArg name len rest with
        | none => rw [hsub] at h; cases h
        | some p =>
            rw [hsub] at h
            cases h
            simp only [List.map_cons]
            rw [ih p.1 p.2 (by rw [hsub])]

lemma names_preserved_missing {args args' : List BuildArg} {n : Str}
    (heq : args'.map (fun a => a.name) = args.map (fun a => a.name))
    (h : ∀ a ∈ args, a.name ≠ n) : ∀ a ∈ args', a.name ≠ n := by
  intro a ha
  have : a.name ∈ args'.map (fun a => a.name) := List.mem_map_of_mem _ ha
  rw [heq] at this
  obtain ⟨a0, ha0, hname⟩ := List.mem_map.mp this
  rw [← hname]
  exact h a0 ha0

lemma processSubstsAux_names (strOp : Str → Op) :
    ∀ (fuel : Nat) (line : Str) (args : List BuildArg) (ops ops' : List Op)
      (args' : List BuildArg),
      processSubstsAux strOp fuel line args ops = some (ops', args') →
      args'.map (fun a => a.name) = args.map (fun a => a.name) := by
  intro fuel
  induction fuel with
  | zero =>
      intro line args ops ops' args' h
      rw [processSubstsAux] at h
      cases h
      rfl
  | succ f ih =>
      intro line args ops ops' args' h
      rw [processSubstsAux] at h
      cases hsp : substPoint line with
      | none =>
          rw [hsp] at h
          cases h
          rfl
      | some p =>
          obtain ⟨b, name, r⟩ := p
          rw [hsp] at h
          simp only at h
          cases hsub : substArg name
              (if b.isEmpty = true then ops else ops ++ [strOp b]).length args with
          | none => rw [hsub] at h; cases h
          | some q =>
              rw [hsub] at h
              exact (ih r q.2 _ ops' args' h).trans
                (substArg_names name _ args q.1 q.2 hsub)

lemma processSubstsAux_missing (strOp : Str → Op) :
    ∀ (fuel : Nat) (line : Str) (args : List BuildArg) (ops : List Op),
      (∃ n ∈ lineNamesAux fuel line, ∀ a ∈ args, a.name ≠ n) →
      processSubstsAux strOp fuel line args ops = none := by
  intro fuel
  induction fuel with
  | zero =>
      intro line args ops h
      obtain ⟨n, hn, _⟩ := h
      rw [lineNamesAux] at hn
      cases hn
  | succ f ih =>
      intro line args ops h
      obtain ⟨n, hn, hmiss⟩ := h
      rw [lineNamesAux] at hn
      cases hsp : substPoint line with
      | none => rw [hsp] at hn; cases hn
      | some p =>
          obtain ⟨b, name, r⟩ := p
          rw [hsp] at hn
          rw [processSubstsAux, hsp]
          simp only
          rcases List.mem_cons.mp hn with rfl | hn'
          · rw [(substArg_none_iff n _ args).mpr hmiss]
          · cases hsub : substArg name
                (if b.isEmpty = true then ops else ops ++ [strOp b]).length args with
            | none => rfl
            | some q =>
                obtain ⟨op, args1⟩ := q
                exact ih r args1 _
                  ⟨n, hn', names_preserved_missing
                    (substArg_names name _ args op args1 hsub) hmiss⟩

lemma processLines_missing (strOp : Str → Op) (indent : Nat) :
    ∀ (lines : List Str) (first : Bool) (args : List BuildArg) (ops : List Op),
      (∃ n ∈ (lines.map fun l => lineNames (dedentLine indent l)).flatten,
        ∀ a ∈ args, a.name ≠ n) →
      processLines strOp indent lines first (some args) ops = none := by
  intro lines
  induction lines with
  | nil =>
      intro first args ops h
      obtain ⟨n, hn, _⟩ := h
      simp at hn
  | cons l rest ih =>
      intro first args ops h
      obtain ⟨n, hn, hmiss⟩ := h
      simp only [List.map_cons, List.flatten_cons, List.mem_append] at hn
      rw [processLines]
      by_cases he : (trimRightChars
          (if l.length ≥ indent then l.drop indent else l)).isEmpty = true
      · rw [if_pos he]
        have hnames : lineNames (dedentLine indent l) = [] := by
          have : dedentLine indent l = [] := by
            rw [dedentLine]
            exact List.isEmpty_iff.mp he
          rw [this]
          rfl
        rcases hn with hn' | hn'
        · rw [hnames] at hn'
          cases hn'
        · exact ih false args _ ⟨n, hn', hmiss⟩
      · rw [if_neg he]
        have hops1 : ∀ ops1 : List Op,
            (match processSubsts strOp
                (trimRightChars (if l.length ≥ indent then l.drop indent else l))
                args ops1 with
              | none => none
              | some (ops2, args1) =>
                  processLines strOp indent rest false (some args1) ops2) =
              (none : Option (List Op × Option (List BuildArg))) := by
          intro ops1
          rcases hn with hn' | hn'
          · rw [show processSubsts strOp
                (trimRightChars (if l.length ≥ indent then l.drop indent else l))
                args ops1 = none from
              processSubstsAux_missing strOp _ _ args ops1 ⟨n, hn', hmiss⟩]
          · cases hps : processSubsts strOp
                (trimRightChars (if l.length ≥ indent then l.drop indent else l))
                args ops1 with
            | none => rfl
            | some q =>
                obtain ⟨ops2, args1⟩ := q
                exact ih false args1 ops2
                  ⟨n, hn', names_preserved_missing
                    (processSubstsAux_names strOp _ _ args ops1 ops2 args1 hps)
                    hmiss⟩
        exact hops1 _

/-- **C8**.  Missing-argument detection: if some placeholder name scanned from
the (dedented) template has no matching entry in the supplied argument list,
compilation fails fatally — `str_to_code` is `none` (the model of the
`get_by_name` panic), so no partial `Code` document exists and nothing can be
rendered. -/
theorem C8_missing_arg_fatal (tmpl : Str) (sl : Option Nat)
    (args : List BuildArg) (strOp : Str → Op)
    (h : ∃ n ∈ tmplNames tmpl, ∀ a ∈ args, a.name ≠ n) :
    str_to_code tmpl sl (some args) strOp = none := by
  rw [str_to_code]
  rw [processLines_missing strOp (min_indent tmpl) (splitNl tmpl) true args
    (slOps sl) h]
  rfl

theorem C8_witness :
    str_to_code (str "$missing") (some 0) (some []) Op.lit = none :=
  C8_missing_arg_fatal (str "$missing") (some 0) [] Op.lit (by decide)

/-! ## Column-shift lemmas (nested re-indentation) -/

lemma replicate_space_add (k b : Nat) :
    List.replicate k ' ' ++ List.replicate b ' ' = List.replicate (b + k) ' ' := by
  rw [← List.replicate_add, Nat.add_comm]

lemma flush_shift (k : Nat) (st : RState) (base : Nat) :
    flush (shiftSt k st) (base + k) = shiftSt k (flush st base) := by
  by_cases hb : isBlankStr st.curr = true
  · simp only [flush, shiftSt, isBlank_replicate_space, hb, if_true]
    rw [replicate_space_add]
  · have hb' : isBlankStr st.curr = false := by
      rw [← Bool.not_eq_true]; exact hb
    simp only [flush, shiftSt, isBlank_replicate_space, hb', Bool.false_eq_true,
      if_false, startsWithCloser_replicate_space,
      endsWithOpener_replicate_space k hb', List.map_append, List.map_cons,
      List.map_nil, shiftChunk]
    rw [replicate_space_add]

lemma nlBump_shift (k : Nat) (s : RState) :
    (if (shiftSt k s).nls < (shiftSt k s).maxNls
      then { shiftSt k s with nls := (shiftSt k s).nls + 1 }
      else shiftSt k s) =
    shiftSt k (if s.nls < s.maxNls then { s with nls := s.nls + 1 } else s) := by
  have hn : (shiftSt k s).nls = s.nls := rfl
  have hm : (shiftSt k s).maxNls = s.maxNls := rfl
  rw [hn, hm]
  by_cases hc : s.nls < s.maxNls
  · rw [if_pos hc, if_pos hc]
    rfl
  · rw [if_neg hc, if_neg hc]

lemma seg_shift (k : Nat) (st : RState) (s : Str) :
    ({ shiftSt k st with
        offset := (shiftSt k st).offset + s.length
        curr := (shiftSt k st).curr ++ s } : RState) =
    shiftSt k { st with offset := st.offset + s.length, curr := st.curr ++ s } := by
  simp [shiftSt, List.append_assoc, Nat.add_right_comm]

/-- Step lemma: the renderer's `Op.innerRef` step with an in-range, nonzero
offset whose target is a nested block reduces to the recursive sub-render of
that block. -/
lemma runOps_innerRef_hit (nest : RState → List Op → Nat → Option RState)
    {done : List Op} {back : Nat} {l : List Op}
    (hle : back ≤ done.length) (hb0 : back ≠ 0)
    (hlook : done[back - 1]? = some (Op.inner l))
    (st : RState) (rest : List Op) (base : Nat) :
    runOps nest st done (Op.innerRef back :: rest) base =
      match nest st l st.offset with
      | none => none
      | some st1 => runOps nest st1 (Op.innerRef back :: done) rest base := by
  rw [runOps, if_pos hle, if_neg hb0, hlook]

lemma runOps_shift (k : Nat)
    (nest : RState → List Op → Nat → Option RState)
    (hnest : ∀ (st : RState) (l : List Op),
      nest (shiftSt k st) l (st.offset + k) = (nest st l st.offset).map (shiftSt k)) :
    ∀ (rest done : List Op) (st : RState) (base : Nat),
      runOps nest (shiftSt k st) done rest (base + k) =
        (runOps nest st done rest base).map (shiftSt k) := by
  intro rest
  induction rest with
  | nil => intro done st base; rw [runOps, runOps]; rfl
  | cons op rest ih =>
      intro done st base
      cases op with
      | nl =>
          rw [runOps, runOps]
          rw [flush_shift, nlBump_shift]
          exact ih _ _ _
      | lit s =>
          rw [runOps, runOps, seg_shift]
          exact ih _ _ _
      | blob s =>
          rw [runOps, runOps, seg_shift]
          exact ih _ _ _
      | inner l =>
          rw [runOps, runOps]
          have h := hnest st l
          rw [show (shiftSt k st).offset = st.offset + k from rfl, h]
          cases hres : nest st l st.offset with
          | none => rfl
          | some st1 => exact ih _ _ _
      | innerRef back =>
          by_cases hle : back ≤ done.length
          · by_cases hb0 : back = 0
            · subst hb0
              rw [runOps, runOps, if_pos hle, if_pos hle]
              rfl
            · cases hlook : done[back - 1]? with
              | none =>
                  rw [runOps, runOps, if_pos hle, if_pos hle, if_neg hb0, hlook]
                  rfl
              | some target =>
                  cases target with
                  | inner l =>
                      rw [runOps_innerRef_hit nest hle hb0 hlook,
                        runOps_innerRef_hit nest hle hb0 hlook]
                      have hoff : (shiftSt k st).offset = st.offset + k := rfl
                      rw [hoff, hnest st l]
                      cases hres : nest st l st.offset with
                      | none => rfl
                      | some st1 => exact ih _ _ _
                  | nl =>
                      rw [runOps, runOps, if_pos hle, if_pos hle, if_neg hb0, hlook]
                      rfl
                  | lit s =>
                      rw [runOps, runOps, if_pos hle, if_pos hle, if_neg hb0, hlook]
                      rfl
                  | blob s =>
                      rw [runOps, runOps, if_pos hle, if_pos hle, if_neg hb0, hlook]
                      rfl
                  | innerRef n =>
                      rw [runOps, runOps, if_pos hle, if_pos hle, if_neg hb0, hlook]
                      rfl
                  | sourceLoc n =>
                      rw [runOps, runOps, if_pos hle, if_pos hle, if_neg hb0, hlook]
                      rfl
          · rw [runOps, runOps, if_neg hle, if_neg hle]
            rfl
      | sourceLoc n =>
          rw [runOps, runOps]
          exact ih _ _ _

lemma runDepth_shift (k : Nat) :
    ∀ (F : Nat) (st : RState) (l : List Op),
      runDepth F (shiftSt k st) l (st.offset + k) =
        (runDepth F st l st.offset).map (shiftSt k) := by
  intro F
  induction F with
  | zero => intro st l; rw [runDepth, runDepth]; rfl
  | succ f ih =>
      intro st l
      rw [runDepth, runDepth]
      exact runOps_shift k (runDepth f) (fun st' l' => ih st' l') l [] st st.offset

/-- **C4**.  A `BackReference` renders exactly the content of the
`NestedBlock` it resolves to: the renderer's `Op.innerRef` step performs the
very same recursive sub-render `runDepth F st l st.offset` as the `Op.inner`
step for the referenced block does (first two conjuncts), so every use site
of a repeated argument produces identical content (up to the column
alignment carried by `st.offset`); in particular compiling `"$x, $x!"` with
`x` bound to `"hi"` renders to `"hi, hi!"`. -/
theorem C4_backref_same_render :
    (∀ (F : Nat) (st : RState) (done rest : List Op) (base back : Nat)
        (l : List Op),
      back ≤ done.length → back ≠ 0 → done[back - 1]? = some (Op.inner l) →
      runOps (runDepth F) st done (Op.innerRef back :: rest) base =
        (runDepth F st l st.offset).bind fun st1 =>
          runOps (runDepth F) st1 (Op.innerRef back :: done) rest base) ∧
    (∀ (F : Nat) (st : RState) (done rest : List Op) (base : Nat) (l : List Op),
      runOps (runDepth F) st done (Op.inner l :: rest) base =
        (runDepth F st l st.offset).bind fun st1 =>
          runOps (runDepth F) st1 (Op.inner l :: done) rest base) ∧
    C4doc.bind render = some (str "hi, hi!") := by
  refine ⟨?_, ?_, by decide⟩
  · intro F st done rest base back l hle hb0 hlook
    rw [runOps_innerRef_hit (runDepth F) hle hb0 hlook]
    cases hres : runDepth F st l st.offset <;> rfl
  · intro F st done rest base l
    rw [runOps]
    cases hres : runDepth F st l st.offset <;> rfl

theorem C4_witness :
    runOps (runDepth 1)
        { out := [], curr := [], nls := 0, maxNls := 0, offset := 0 }
        [Op.inner [Op.lit (str "z")]] [Op.innerRef 1] 0 =
      (runDepth 1 { out := [], curr := [], nls := 0, maxNls := 0, offset := 0 }
          [Op.lit (str "z")]
          ({ out := [], curr := [], nls := 0, maxNls := 0,
             offset := 0 } : RState).offset).bind
        fun st1 =>
          runOps (runDepth 1) st1
            (Op.innerRef 1 :: [Op.inner [Op.lit (str "z")]]) [] 0 :=
  C4_backref_same_render.1 1
    { out := [], curr := [], nls := 0, maxNls := 0, offset := 0 }
    [Op.inner [Op.lit (str "z")]] [] 0 1 [Op.lit (str "z")]
    (by decide) (by decide) rfl

/-- **C7**.  Nested indentation: rendering any operation sequence from a
state shifted right by `k` columns produces exactly the shifted result —
every line subsequently flushed (each `shiftChunk`) gains exactly `k` leading
spaces, and the in-progress first line is continued, not re-padded.  A
multi-line document substituted at output column `k` therefore has every line
after its first padded with exactly `k` leading spaces, e.g. `"foo: $b"`
with `b = "x\ny\nz"` renders with exactly 5 leading spaces on the later
lines. -/
theorem C7_nested_indent :
    (∀ (F k : Nat) (rest done : List Op) (st : RState) (base : Nat),
      runOps (runDepth F) (shiftSt k st) done rest (base + k) =
        (runOps (runDepth F) st done rest base).map (shiftSt k)) ∧
    C7doc.bind render = some (str "foo: x\n     y\n     z") := by
  refine ⟨?_, by decide⟩
  intro F k rest done st base
  exact runOps_shift k (runDepth F) (fun st' l' => runDepth_shift k F st' l')
    rest done st base

/-- **C1** (counterexample).  The end-to-end example does *not* render with a
final trailing newline: `flush` emits pending newline characters only
immediately before a non-blank line, so the trailing `Op.nl` produced by the
template's final `"\n"` writes nothing. -/
theorem C1_counterexample :
    C1doc.bind render ≠
      some (str "struct peaches \x7b\n    uint32_t a;\n    char* b;\n\x7d;\n") := by
  decide

/-- **C1** (amended).  Compiling the template
`"struct $name {\n    $fields\n};\n"` with `name` bound to `"peaches"` and
`fields` bound to the concatenation of the documents compiled from
`"$ty $field;\n"` for the pairs `("uint32_t","a")` and `("char*","b")`, then
rendering in plain mode, yields exactly
`"struct peaches {\n    uint32_t a;\n    char* b;\n};"` — the claimed text
*without* the final trailing newline. -/
theorem C1_amended :
    C1doc.bind render =
      some (str "struct peaches \x7b\n    uint32_t a;\n    char* b;\n\x7d;") := by
  decide

/-- **C2** (divergence).  On the string `" a"` (no newline, first character
whitespace) the `String` adapter takes its fast path and stores the text
verbatim, rendering `" a"`, while the `&str` adapter — the template-literal
compilation the spec prescribes — dedents and renders `"a"`.  The fast path's
guard contradicts its own "we won't be performing any transformations"
comment: it fires exactly when the first character is whitespace, i.e. when
dedenting *would* transform the buffer. -/
theorem C2_divergence :
    render (stringIntoCode (str " a")) = some (str " a") ∧
      render (strIntoCode (str " a")) = some (str "a") ∧
      render (stringIntoCode (str " a")) ≠ render (strIntoCode (str " a")) := by
  refine ⟨by decide, by decide, by decide⟩

/-! ## Back-reference well-formedness of compiler output (C3) -/

lemma wfseq_iff {ops : List Op} : WFseq ops ↔ WFrefs ops ∧ WFinners ops := by
  constructor
  · rintro ⟨_, refs, inners⟩
    exact ⟨refs, inners⟩
  · rintro ⟨hr, hi⟩
    exact WFseq.mk ops hr hi

lemma getElem?_some_lt {α : Type} {l : List α} {i : Nat} {a : α}
    (h : l[i]? = some a) : i < l.length := by
  by_contra hc
  rw [List.getElem?_eq_none (Nat.le_of_not_lt hc)] at h
  cases h

lemma WFrefs_snoc {ops : List Op} (h : WFrefs ops) {op : Op}
    (hop : ∀ n, op = Op.innerRef n →
      n ≤ ops.length ∧ ∃ l, ops[ops.length - n]? = some (Op.inner l)) :
    WFrefs (ops ++ [op]) := by
  intro i back hi
  rcases lt_trichotomy i ops.length with hlt | heq | hgt
  · rw [List.getElem?_append_left hlt] at hi
    obtain ⟨h1, l, h2⟩ := h i back hi
    refine ⟨h1, l, ?_⟩
    rw [List.getElem?_append_left (lt_of_le_of_lt (Nat.sub_le i back) hlt)]
    exact h2
  · subst heq
    rw [List.getElem?_concat_length] at hi
    cases hi
    obtain ⟨h1, l, h2⟩ := hop back rfl
    refine ⟨h1, l, ?_⟩
    rw [List.getElem?_append_left (getElem?_some_lt h2)]
    exact h2
  · exfalso
    rw [List.getElem?_eq_none
      (by simp only [List.length_append, List.length_singleton]; omega)] at hi
    cases hi

lemma WFinners_snoc {ops : List Op} (h : WFinners ops) {op : Op}
    (hop : ∀ l, op = Op.inner l → WFseq l) : WFinners (ops ++ [op]) := by
  intro i l hi
  rcases lt_trichotomy i ops.length with hlt | heq | hgt
  · rw [List.getElem?_append_left hlt] at hi
    exact h i l hi
  · subst heq
    rw [List.getElem?_concat_length] at hi
    cases hi
    exact hop l rfl
  · exfalso
    rw [List.getElem?_eq_none
      (by simp only [List.length_append, List.length_singleton]; omega)] at hi
    cases hi

lemma ArgsInv_snoc {ops : List Op} {args : List BuildArg} (h : ArgsInv ops args)
    (op : Op) : ArgsInv (ops ++ [op]) args := by
  intro a ha
  refine ⟨(h a ha).1, ?_⟩
  intro hc
  obtain ⟨l, hl⟩ := (h a ha).2 hc
  exact ⟨l, by rw [List.getElem?_append_left (getElem?_some_lt hl)]; exact hl⟩

lemma WFrefs_of_no {ops : List Op} (h : ∀ op ∈ ops, ∀ n, op ≠ Op.innerRef n) :
    WFrefs ops := by
  intro i back hi
  exact absurd rfl (h _ (List.getElem?_mem hi) back)

lemma WFinners_of_no {ops : List Op} (h : ∀ op ∈ ops, ∀ l, op ≠ Op.inner l) :
    WFinners ops := by
  intro i l hi
  exact absurd rfl (h _ (List.getElem?_mem hi) l)

lemma substArg_wf {ops : List Op} :
    ∀ {args : List BuildArg}, ArgsInv ops args →
      ∀ {name : Str} {op : Op} {args' : List BuildArg},
        substArg name ops.length args = some (op, args') →
        (∀ n, op = Op.innerRef n →
          n ≤ ops.length ∧ ∃ l, ops[ops.length - n]? = some (Op.inner l)) ∧
          (∀ l, op = Op.inner l → WFseq l) ∧ ArgsInv (ops ++ [op]) args' := by
  intro args
  induction args with
  | nil => intro _ name op args' h; cases h
  | cons a rest ih =>
      intro hargs name op args' h
      have htail : ArgsInv ops rest := fun x hx => hargs x (List.mem_cons_of_mem _ hx)
      rw [substArg] at h
      by_cases hn : a.name = name
      · rw [if_pos hn] at h
        cases hc : a.code with
        | some d =>
            rw [hc] at h
            cases h
            refine ⟨fun n hop => Op.noConfusion hop, ?_, ?_⟩
            · intro l hop
              cases hop
              exact (hargs a (List.mem_cons_self _ _)).1 d hc
            · intro a' ha'
              rcases List.mem_cons.mp ha' with rfl | ha'
              · refine ⟨?_, fun _ => ?_⟩
                · intro d' hd'
                  exact Option.noConfusion hd'
                · exact ⟨d.ops, by rw [List.getElem?_concat_length]⟩
              · exact (ArgsInv_snoc htail _) a' ha'
        | none =>
            rw [hc] at h
            cases h
            obtain ⟨l, hl⟩ := (hargs a (List.mem_cons_self _ _)).2 hc
            have hidx : a.index < ops.length := getElem?_some_lt hl
            refine ⟨?_, fun l' hop => Op.noConfusion hop, ArgsInv_snoc hargs _⟩
            intro n hop
            cases hop
            refine ⟨Nat.sub_le _ _, l, ?_⟩
            rw [show ops.length - (ops.length - a.index) = a.index from by omega]
            exact hl
      · rw [if_neg hn] at h
        cases hsub : substArg name ops.length rest with
        | none => rw [hsub] at h; cases h
        | some q =>
            obtain ⟨op0, rest'⟩ := q
            rw [hsub] at h
            cases h
            obtain ⟨h1, h2, h3⟩ := ih htail hsub
            refine ⟨h1, h2, ?_⟩
            intro a' ha'
            rcases List.mem_cons.mp ha' with rfl | ha'
            · exact (ArgsInv_snoc hargs op0) a' (List.mem_cons_self _ _)
            · exact h3 a' ha'

lemma strOp_no_ref {strOp : Str → Op}
    (hop : ∀ s, strOp s = Op.lit s ∨ strOp s = Op.blob s) (s : Str) :
    (∀ n, strOp s ≠ Op.innerRef n) ∧ (∀ l, strOp s ≠ Op.inner l) := by
  rcases hop s with h | h <;> rw [h] <;>
    exact ⟨fun n hn => Op.noConfusion hn, fun l hl => Op.noConfusion hl⟩

lemma trailing_wf {strOp : Str → Op}
    (hop : ∀ s, strOp s = Op.lit s ∨ strOp s = Op.blob s)
    {ops : List Op} {args : List BuildArg} (line : Str)
    (hr : WFrefs ops) (hi : WFinners ops) (ha : ArgsInv ops args) :
    WFrefs (if line.isEmpty = true then ops else ops ++ [strOp line]) ∧
      WFinners (if line.isEmpty = true then ops else ops ++ [strOp line]) ∧
      ArgsInv (if line.isEmpty = true then ops else ops ++ [strOp line]) args := by
  split
  · exact ⟨hr, hi, ha⟩
  · obtain ⟨h1, h2⟩ := strOp_no_ref hop line
    refine ⟨WFrefs_snoc hr ?_, WFinners_snoc hi ?_, ArgsInv_snoc ha _⟩
    · intro n hn; exact absurd hn (h1 n)
    · intro l hl; exact absurd hl (h2 l)

lemma processSubstsAux_wf {strOp : Str → Op}
    (hop : ∀ s, strOp s = Op.lit s ∨ strOp s = Op.blob s) :
    ∀ (fuel : Nat) (line : Str) (args : List BuildArg) (ops ops' : List Op)
      (args' : List BuildArg),
      WFrefs ops → WFinners ops → ArgsInv ops args →
      processSubstsAux strOp fuel line args ops = some (ops', args') →
      WFrefs ops' ∧ WFinners ops' ∧ ArgsInv ops' args' := by
  intro fuel
  induction fuel with
  | zero =>
      intro line args ops ops' args' hr hi ha h
      rw [processSubstsAux] at h
      cases h
      exact trailing_wf hop line hr hi ha
  | succ f ih =>
      intro line args ops ops' args' hr hi ha h
      rw [processSubstsAux] at h
      cases hsp : substPoint line with
      | none =>
          rw [hsp] at h
          cases h
          exact trailing_wf hop line hr hi ha
      | some p =>
          obtain ⟨b, name, r⟩ := p
          rw [hsp] at h
          simp only at h
          obtain ⟨hr1, hi1, ha1⟩ := trailing_wf hop b hr hi ha
          cases hsub : substArg name
              (if b.isEmpty = true then ops else ops ++ [strOp b]).length args with
          | none => rw [hsub] at h; cases h
          | some q =>
              obtain ⟨op0, args1⟩ := q
              rw [hsub] at h
              obtain ⟨hc1, hc2, hc3⟩ := substArg_wf ha1 hsub
              refine ih r args1 _ ops' args' ?_ ?_ hc3 h
              · exact WFrefs_snoc hr1 hc1
              · exact WFinners_snoc hi1 hc2

lemma nl_snoc_wf {ops : List Op} {args : List BuildArg} (first : Bool)
    (hr : WFrefs ops) (hi : WFinners ops) (ha : ArgsInv ops args) :
    WFrefs (if first then ops else ops ++ [Op.nl]) ∧
      WFinners (if first then ops else ops ++ [Op.nl]) ∧
      ArgsInv (if first then ops else ops ++ [Op.nl]) args := by
  cases first
  · refine ⟨WFrefs_snoc hr ?_, WFinners_snoc hi ?_, ArgsInv_snoc ha _⟩
    · intro n hn; exact Op.noConfusion hn
    · intro l hl; exact Op.noConfusion hl
  · exact ⟨hr, hi, ha⟩

lemma processLines_cons_some (strOp : Str → Op) (indent : Nat) (l : Str)
    (rest : List Str) (first : Bool) (args : List BuildArg) (ops : List Op)
    (he : (trimRightChars
      (if l.length ≥ indent then l.drop indent else l)).isEmpty = false) :
    processLines strOp indent (l :: rest) first (some args) ops =
      match processSubsts strOp
          (trimRightChars (if l.length ≥ indent then l.drop indent else l)) args
          (if first then ops else ops ++ [Op.nl]) with
      | none => none
      | some (ops1, args1) =>
          processLines strOp indent rest false (some args1) ops1 := by
  rw [processLines, if_neg (by simp [he])]

lemma processLines_wf {strOp : Str → Op}
    (hop : ∀ s, strOp s = Op.lit s ∨ strOp s = Op.blob s) (indent : Nat) :
    ∀ (lines : List Str) (first : Bool) (args? : Option (List BuildArg))
      (ops ops' : List Op) (args'? : Option (List BuildArg)),
      WFrefs ops → WFinners ops →
      (∀ args, args? = some args → ArgsInv ops args) →
      processLines strOp indent lines first args? ops = some (ops', args'?) →
      WFrefs ops' ∧ WFinners ops' := by
  intro lines
  induction lines with
  | nil =>
      intro first args? ops ops' args'? hr hi _ h
      rw [processLines] at h
      cases h
      exact ⟨hr, hi⟩
  | cons l rest ih =>
      intro first args? ops ops' args'? hr hi hargs h
      by_cases he : (trimRightChars
          (if l.length ≥ indent then l.drop indent else l)).isEmpty = true
      · cases args? with
        | none =>
            rw [processLines, if_pos he] at h
            obtain ⟨h0r, h0i, _⟩ :=
              nl_snoc_wf first hr hi (fun a ha => absurd ha (List.not_mem_nil a))
            exact ih false none _ ops' args'? h0r h0i
              (fun args habs => by cases habs) h
        | some args =>
            rw [processLines, if_pos he] at h
            obtain ⟨h0r, h0i, h0a⟩ := nl_snoc_wf first hr hi (hargs args rfl)
            exact ih false (some args) _ ops' args'? h0r h0i
              (fun args' heq => by cases heq; exact h0a) h
      · have he' : (trimRightChars
            (if l.length ≥ indent then l.drop indent else l)).isEmpty = false := by
          rw [← Bool.not_eq_true]; exact he
        cases args? with
        | none =>
            rw [processLines, if_neg (by simp [he'])] at h
            obtain ⟨h0r, h0i, _⟩ :=
              nl_snoc_wf first hr hi (fun a ha => absurd ha (List.not_mem_nil a))
            obtain ⟨hsr, hsi, _⟩ := trailing_wf hop
              (trimRightChars (if l.length ≥ indent then l.drop indent else l))
              h0r h0i (fun a ha => absurd ha (List.not_mem_nil a))
            rw [he'] at hsr hsi
            simp only [Bool.false_eq_true, if_false] at hsr hsi
            exact ih false none _ ops' args'? hsr hsi
              (fun args habs => by cases habs) h
        | some args =>
            rw [processLines_cons_some strOp indent l rest first args ops he'] at h
            obtain ⟨h0r, h0i, h0a⟩ := nl_snoc_wf first hr hi (hargs args rfl)
            cases hps : processSubsts strOp
                (trimRightChars (if l.length ≥ indent then l.drop indent else l))
                args (if first then ops else ops ++ [Op.nl]) with
            | none => rw [hps] at h; cases h
            | some q =>
                obtain ⟨ops1, args1⟩ := q
                rw [hps] at h
                obtain ⟨h1r, h1i, h1a⟩ := processSubstsAux_wf hop _ _ args _
                  ops1 args1 h0r h0i h0a hps
                exact ih false (some args1) ops1 ops' args'? h1r h1i
                  (fun args2 heq => by cases heq; exact h1a) h

lemma slOps_wf (sl : Option Nat) : WFrefs (slOps sl) ∧ WFinners (slOps sl) := by
  cases sl with
  | none =>
      exact ⟨WFrefs_of_no (by intro op h n; cases h),
        WFinners_of_no (by intro op h l; cases h)⟩
  | some n =>
      refine ⟨WFrefs_of_no ?_, WFinners_of_no ?_⟩
      · intro op h m
        rcases List.mem_singleton.mp h with rfl
        exact fun hh => Op.noConfusion hh
      · intro op h l
        rcases List.mem_singleton.mp h with rfl
        exact fun hh => Op.noConfusion hh

lemma strToCode_wf {tmpl : Str} {sl : Option Nat} {args : List BuildArg}
    {strOp : Str → Op} {c : Code}
    (hop : ∀ s, strOp s = Op.lit s ∨ strOp s = Op.blob s)
    (hargs : ∀ a ∈ args, (∀ d, a.code = some d → WFseq d.ops) ∧ a.code ≠ none)
    (h : str_to_code tmpl sl (some args) strOp = some c) : WFseq c.ops := by
  rw [str_to_code] at h
  cases hpl : processLines strOp (min_indent tmpl) (splitNl tmpl) true
      (some args) (slOps sl) with
  | none => rw [hpl] at h; cases h
  | some p =>
      rw [hpl] at h
      cases h
      obtain ⟨h0r, h0i⟩ := slOps_wf sl
      have h0a : ArgsInv (slOps sl) args := by
        intro a ha
        exact ⟨(hargs a ha).1, fun hc => absurd hc (hargs a ha).2⟩
      obtain ⟨hr, hi⟩ := processLines_wf hop (min_indent tmpl) (splitNl tmpl)
        true (some args) (slOps sl) p.1 p.2 h0r h0i
        (fun args' heq => by cases heq; exact h0a) hpl
      exact wfseq_iff.mpr ⟨hr, hi⟩

lemma wfseq_append {a b : List Op} (ha : WFseq a) (hb : WFseq b) :
    WFseq (a ++ b) := by
  obtain ⟨har, hai⟩ := wfseq_iff.mp ha
  obtain ⟨hbr, hbi⟩ := wfseq_iff.mp hb
  refine wfseq_iff.mpr ⟨?_, ?_⟩
  · intro i back hi
    by_cases hlt : i < a.length
    · rw [List.getElem?_append_left hlt] at hi
      obtain ⟨h1, l, h2⟩ := har i back hi
      refine ⟨h1, l, ?_⟩
      rw [List.getElem?_append_left (lt_of_le_of_lt (Nat.sub_le i back) hlt)]
      exact h2
    · have hge : a.length ≤ i := Nat.le_of_not_lt hlt
      rw [List.getElem?_append_right hge] at hi
      obtain ⟨h1, l, h2⟩ := hbr (i - a.length) back hi
      refine ⟨by omega, l, ?_⟩
      rw [List.getElem?_append_right (by omega)]
      rw [show i - back - a.length = i - a.length - back from by omega]
      exact h2
  · intro i l hi
    by_cases hlt : i < a.length
    · rw [List.getElem?_append_left hlt] at hi
      exact hai i l hi
    · rw [List.getElem?_append_right (Nat.le_of_not_lt hlt)] at hi
      exact hbi _ l hi

lemma wfseq_strIntoCode (s : Str) : WFseq (strIntoCode s).ops := by
  rw [strIntoCode_eq]
  refine wfseq_iff.mpr ⟨WFrefs_of_no ?_, WFinners_of_no ?_⟩
  · intro op hm n
    rcases linesOps_mem hm with rfl | ⟨l, _, rfl⟩
    · exact fun h => Op.noConfusion h
    · exact fun h => Op.noConfusion h
  · intro op hm l
    rcases linesOps_mem hm with rfl | ⟨l', _, rfl⟩
    · exact fun h => Op.noConfusion h
    · exact fun h => Op.noConfusion h

lemma wfseq_singleton_blob (s : Str) : WFseq [Op.blob s] := by
  refine wfseq_iff.mpr ⟨WFrefs_of_no ?_, WFinners_of_no ?_⟩
  · intro op hm n
    rcases List.mem_singleton.mp hm with rfl
    exact fun h => Op.noConfusion h
  · intro op hm l
    rcases List.mem_singleton.mp hm with rfl
    exact fun h => Op.noConfusion h

lemma wfseq_singleton_lit (s : Str) : WFseq [Op.lit s] := by
  refine wfseq_iff.mpr ⟨WFrefs_of_no ?_, WFinners_of_no ?_⟩
  · intro op hm n
    rcases List.mem_singleton.mp hm with rfl
    exact fun h => Op.noConfusion h
  · intro op hm l
    rcases List.mem_singleton.mp hm with rfl
    exact fun h => Op.noConfusion h

lemma built_wf : ∀ {c : Code}, Built c → WFseq c.ops := by
  intro c hb
  induction hb with
  | build tmpl sl args strOp c hop hsome hargs h ih =>
      exact strToCode_wf hop
        (fun a ha => ⟨fun d hd => ih a d ha hd, hsome a ha⟩) h
  | ofStr s => exact wfseq_strIntoCode s
  | ofString s =>
      rw [stringIntoCode]
      split
      · exact wfseq_singleton_blob s
      · exact wfseq_strIntoCode s
  | ofBool b => exact wfseq_singleton_lit _
  | ofDisplay s => exact wfseq_singleton_blob s
  | empty =>
      exact wfseq_iff.mpr ⟨WFrefs_of_no (by intro op h; cases h),
        WFinners_of_no (by intro op h; cases h)⟩
  | push a b ha hb iha ihb => exact wfseq_append iha ihb

lemma built_fromList {l : List Code} (h : ∀ c ∈ l, Built c) :
    Built (Code.fromList l) := by
  cases l with
  | nil => exact Built.empty
  | cons c cs =>
      rw [Code.fromList]
      have hfold : ∀ (cs : List Code) (acc : Code), Built acc →
          (∀ x ∈ cs, Built x) → Built (cs.foldl Code.push acc) := by
        intro cs
        induction cs with
        | nil => intro acc ha _; exact ha
        | cons x xs ihx =>
            intro acc ha hx
            rw [List.foldl_cons]
            exact ihx _ (Built.push _ _ ha (hx x (List.mem_cons_self _ _)))
              (fun y hy => hx y (List.mem_cons_of_mem _ hy))
      exact hfold cs c (h c (List.mem_cons_self _ _))
        (fun x hx => h x (List.mem_cons_of_mem _ hx))

/-! ## Fuel sufficiency: the renderer never exhausts the depth bound (C3) -/

lemma sizeList_pos (l : List Op) : 1 ≤ Op.sizeList l := by
  cases l with
  | nil => simp [Op.sizeList]
  | cons o rest =>
      rw [show Op.sizeList (o :: rest) = 1 + Op.size o + Op.sizeList rest from rfl]
      omega

lemma sizeList_cons (op : Op) (l : List Op) :
    Op.sizeList (op :: l) = 1 + Op.size op + Op.sizeList l := rfl

lemma size_mem {op : Op} : ∀ {l : List Op}, op ∈ l → Op.size op < Op.sizeList l := by
  intro l
  induction l with
  | nil => intro h; cases h
  | cons a rest ih =>
      intro h
      rcases List.mem_cons.mp h with rfl | h'
      · have := sizeList_pos rest
        rw [sizeList_cons]
        omega
      · have := ih h'
        rw [sizeList_cons]
        omega

lemma full_index_head (done rest : List Op) (op : Op) :
    (done.reverse ++ op :: rest)[done.length]? = some op := by
  rw [List.getElem?_append_right (by simp)]
  simp

lemma full_lookup_done {done rest : List Op} {op : Op} {back : Nat}
    (h1 : 1 ≤ back) (h2 : back ≤ done.length) :
    (done.reverse ++ op :: rest)[done.length - back]? = done[back - 1]? := by
  rw [List.getElem?_append_left (by simp; omega)]
  rw [List.getElem?_reverse (by simp; omega)]
  congr 1
  omega

lemma full_shift {done rest : List Op} {op : Op} :
    (op :: done).reverse ++ rest = done.reverse ++ op :: rest := by
  simp [List.reverse_cons, List.append_assoc]

lemma runDepth_total :
    ∀ (F : Nat) (rest done : List Op) (st : RState) (base : Nat),
      WFseq (done.reverse ++ rest) →
      Op.sizeList done + Op.sizeList rest ≤ F + 1 →
      (runOps (runDepth F) st done rest base).isSome := by
  intro F
  induction F using Nat.strong_induction_on with
  | _ F IH =>
      intro rest
      induction rest with
      | nil =>
          intro done st base _ _
          rw [runOps]
          rfl
      | cons op rest ih =>
          intro done st base hwf hsz
          have hwf' : WFseq ((op :: done).reverse ++ rest) := by
            rw [full_shift]; exact hwf
          have hsz' : Op.sizeList (op :: done) + Op.sizeList rest ≤ F + 1 := by
            rw [sizeList_cons] at hsz ⊢
            omega
          cases op with
          | nl =>
              rw [runOps]
              exact ih _ _ _ hwf' hsz'
          | lit s =>
              rw [runOps]
              exact ih _ _ _ hwf' hsz'
          | blob s =>
              rw [runOps]
              exact ih _ _ _ hwf' hsz'
          | sourceLoc n =>
              rw [runOps]
              exact ih _ _ _ hwf' hsz'
          | inner l =>
              have hd := sizeList_pos done
              have hr := sizeList_pos rest
              have hl := sizeList_pos l
              rw [sizeList_cons] at hsz
              have hszop : Op.size (Op.inner l) = 1 + Op.sizeList l := rfl
              have hF : 1 ≤ F := by omega
              obtain ⟨f, rfl⟩ : ∃ f, F = f + 1 := ⟨F - 1, by omega⟩
              rw [runOps]
              have hwl : WFseq l := by
                rcases wfseq_iff.mp hwf with ⟨_, hinn⟩
                exact hinn done.length l (full_index_head done rest _)
              have hsub : (runOps (runDepth f) st [] l st.offset).isSome := by
                refine IH f (by omega) l [] st st.offset (by simpa using hwl) ?_
                have : Op.sizeList ([] : List Op) = 1 := rfl
                omega
              obtain ⟨st1, hst1⟩ := Option.isSome_iff_exists.mp hsub
              have hcall : runDepth (f + 1) st l st.offset = some st1 := by
                rw [runDepth]; exact hst1
              rw [hcall]
              exact ih _ _ _ hwf' hsz'
          | innerRef back =>
              rcases wfseq_iff.mp hwf with ⟨hrefs, hinn⟩
              have hfull := full_index_head done rest (Op.innerRef back)
              obtain ⟨hle', hex⟩ := hrefs done.length back hfull
              have hb0 : back ≠ 0 := by
                intro h0
                obtain ⟨l0, hl0⟩ := hex
                rw [h0, Nat.sub_zero] at hl0
                rw [h0] at hfull
                rw [hfull] at hl0
                exact Op.noConfusion (Option.some.inj hl0)
              obtain ⟨l', htgt'⟩ := hex
              have hlook : done[back - 1]? = some (Op.inner l') := by
                rw [← full_lookup_done (by omega) hle']
                exact htgt'
              rw [runOps_innerRef_hit (runDepth F) hle' hb0 hlook]
              have hmem : Op.inner l' ∈ done := List.getElem?_mem hlook
              have hsizemem : Op.size (Op.inner l') < Op.sizeList done :=
                size_mem hmem
              have hszop : Op.size (Op.inner l') = 1 + Op.sizeList l' := rfl
              have hd := sizeList_pos done
              have hr := sizeList_pos rest
              rw [sizeList_cons] at hsz
              have hF : 1 ≤ F := by
                have : Op.size (Op.innerRef back) = 1 := rfl
                omega
              obtain ⟨f, rfl⟩ : ∃ f, F = f + 1 := ⟨F - 1, by omega⟩
              have hwl : WFseq l' := hinn (done.length - back) l' htgt'
              have hsub : (runOps (runDepth f) st [] l' st.offset).isSome := by
                refine IH f (by omega) l' [] st st.offset (by simpa using hwl) ?_
                have h0 : Op.sizeList ([] : List Op) = 1 := rfl
                omega
              obtain ⟨st1, hst1⟩ := Option.isSome_iff_exists.mp hsub
              have hcall : runDepth (f + 1) st l' st.offset = some st1 := by
                rw [runDepth]; exact hst1
              rw [hcall]
              exact ih _ _ _ hwf' hsz'

lemma render_isSome {c : Code} (h : WFseq c.ops) : (render c).isSome := by
  rw [render, do_display]
  have htot := runDepth_total (Op.sizeList c.ops) c.ops []
    { out := [], curr := List.replicate 0 ' ', nls := 0, maxNls := 0, offset := 0 }
    0 (by simpa using h)
    (by have h0 : Op.sizeList ([] : List Op) = 1 := rfl; omega)
  obtain ⟨st, hst⟩ := Option.isSome_iff_exists.mp htot
  rw [hst]
  rfl

/-- **C3**.  Every document produced by the compiler from converted,
well-formed arguments, or composed from such documents by `Code::push` /
`FromIterator` (`Built`), has well-formed back-references at every level:
each `Op.innerRef back` sits at an index `i ≥ back` and `ops[i - back]` is an
`Op.inner` of the same sequence (`WFseq`).  Consequently the renderer's
malformed-back-reference fatal branches — the `assert!("Invalid index")` and
the `panic!("Invalid type at index")`, both modelled by `none` — are
unreachable: rendering such a document always succeeds. -/
theorem C3_no_malformed_backrefs :
    (∀ c : Code, Built c → WFseq c.ops ∧ (render c).isSome) ∧
    (∀ l : List Code, (∀ c ∈ l, Built c) →
      WFseq (Code.fromList l).ops ∧ (render (Code.fromList l)).isSome) := by
  have main : ∀ c : Code, Built c → WFseq c.ops ∧ (render c).isSome := by
    intro c hb
    have hw := built_wf hb
    exact ⟨hw, render_isSome hw⟩
  exact ⟨main, fun l hl => main _ (built_fromList hl)⟩

theorem C3_witness :
    WFseq (strIntoCode (str "wf")).ops ∧
      (render (strIntoCode (str "wf"))).isSome :=
  C3_no_malformed_backrefs.1 (strIntoCode (str "wf")) (Built.ofStr (str "wf"))
